import Mathlib

/-!
# Structured logging sample (`run/logging-manual`)

A shallow embedding of `main.go`: the `Entry`, `HTTPRequest` and `SourceLocation`
records, `Entry.String` and `indexHandler`, together with the parts of the Go
standard library they call (`encoding/json`, `time`, `strconv`, `fmt`, `log`,
`net/http`), followed by theorems about the serialized log line.

Conventions of the embedding.

* A Go `string` is a Lean `String`, that is, a Go string holding valid UTF-8.
  (`encoding/json` replaces every byte that is not valid UTF-8 by U+FFFD;
  such strings have no counterpart here.)
* A Go `[]byte` result is the `String` with those bytes.
* `(value, error)` results are pairs whose second component is an `Option`.
* The standard library is modelled after Go 1.22.
-/

set_option maxRecDepth 100000

/-! ## strconv -/

namespace strconv

/-- The ASCII digit for `d < 10`. -/
def digit (d : Nat) : Char := Char.ofNat (48 + d)

/-- The loop of `formatBits` for base 10: peel off the low digit until the
value is below ten, writing from the right. `fuel` bounds the iterations. -/
def formatBits : Nat → Nat → List Char → List Char
  | 0, _, acc => acc
  | fuel + 1, u, acc =>
    if u < 10 then digit u :: acc
    else formatBits fuel (u / 10) (digit (u % 10) :: acc)

/-- Decimal digits of an unsigned value, most significant first. -/
def uitoa (u : Nat) : List Char := formatBits (u + 1) u []

/-- The Go function `strconv.AppendInt(nil, i, 10)`: a minus sign for negative values, then the
digits of the magnitude. -/
def AppendInt (i : Int) : String :=
  if i < 0 then ⟨'-' :: uitoa i.natAbs⟩ else ⟨uitoa i.natAbs⟩

/-- The Go function `strconv.AppendBool`. -/
def AppendBool (b : Bool) : String := if b then "true" else "false"

end strconv

/-! ## time -/

namespace time

def secondsPerMinute : Int := 60
def secondsPerHour : Int := 60 * secondsPerMinute
def secondsPerDay : Int := 24 * secondsPerHour
def daysPer400Years : Int := 365 * 400 + 97
def daysPer100Years : Int := 365 * 100 + 24
def daysPer4Years : Int := 365 * 4 + 1

/-- The year of the zero of the absolute time scale; a multiple of 400 plus one. -/
def absoluteZeroYear : Int := -292277022399
/-- The year of the zero of the internal time scale. -/
def internalYear : Int := 1

/-- Offset between the absolute and the internal scale, in seconds:
`(absoluteZeroYear - internalYear) * 365.2425 * secondsPerDay`. -/
def absoluteToInternal : Int :=
  (absoluteZeroYear - internalYear) * 3652425 / 10000 * secondsPerDay
def internalToAbsolute : Int := -absoluteToInternal

/-- A `*time.Location`, restricted to zones with one fixed offset
(`time.UTC`, `time.FixedZone`): seconds east of UTC. -/
structure Location where
  offset : Int := 0
  deriving DecidableEq, Repr

/-- The location `time.UTC`. -/
def UTC : Location := { offset := 0 }

/-- A `time.Time`: seconds since January 1, year 1 00:00:00 UTC, the
nanosecond within the second, and the location. The zero value is
January 1, year 1, 00:00:00.000000000 UTC. -/
structure Time where
  sec : Int := 0
  nsec : Nat := 0
  loc : Location := {}
  deriving DecidableEq, Repr

/-- Conversion to `uint64`. -/
def toUint64 (x : Int) : Int := x % 2 ^ 64

def isLeap (year : Int) : Bool :=
  year % 4 == 0 && (year % 100 != 0 || year % 400 == 0)

/-- Number of days in a non-leap year before month `m + 1` begins. -/
def daysBefore : List Int :=
  [0, 31, 31 + 28, 31 + 28 + 31, 31 + 28 + 31 + 30, 31 + 28 + 31 + 30 + 31,
   31 + 28 + 31 + 30 + 31 + 30, 31 + 28 + 31 + 30 + 31 + 30 + 31,
   31 + 28 + 31 + 30 + 31 + 30 + 31 + 31, 31 + 28 + 31 + 30 + 31 + 30 + 31 + 31 + 30,
   31 + 28 + 31 + 30 + 31 + 30 + 31 + 31 + 30 + 31,
   31 + 28 + 31 + 30 + 31 + 30 + 31 + 31 + 30 + 31 + 30,
   31 + 28 + 31 + 30 + 31 + 30 + 31 + 31 + 30 + 31 + 30 + 31]

/-- The helper `norm`: `(hi, lo)` with `hi * base + lo` unchanged and `0 ≤ lo < base`. -/
def norm (hi lo base : Int) : Int × Int :=
  (hi + lo / base, lo % base)

/-- Days from the absolute epoch to the start of `year`. -/
def daysSinceEpoch (year : Int) : Int :=
  let y := toUint64 (year - absoluteZeroYear)
  let n := y / 400
  let y := y - 400 * n
  let d := daysPer400Years * n
  let n := y / 100
  let y := y - 100 * n
  let d := d + daysPer100Years * n
  let n := y / 4
  let y := y - 4 * n
  let d := d + daysPer4Years * n
  d + 365 * y

/-- The Go function `time.Date(year, month, day, hour, min, sec, nsec, loc)`; out-of-range values
are normalised. -/
def Date (year month day hour min sec nsec : Int) (loc : Location) : Time :=
  let (year, m) := norm year (month - 1) 12
  let month := m + 1
  let (sec, nsec) := norm sec nsec 1000000000
  let (min, sec) := norm min sec 60
  let (hour, min) := norm hour min 60
  let (day, hour) := norm day hour 24
  let d := daysSinceEpoch year
  let d := d + daysBefore.getD (month - 1).toNat 0
  let d := if isLeap year && month ≥ 3 then d + 1 else d
  let d := d + (day - 1)
  let abs := d * secondsPerDay
  let abs := toUint64 (abs + (hour * secondsPerHour + min * secondsPerMinute + sec))
  let internal := abs + absoluteToInternal
  { sec := internal - loc.offset, nsec := nsec.toNat, loc := loc }

/-- The method `t.abs()`: seconds since the absolute epoch, shifted into the
time's own zone. -/
def Time.abs (t : Time) : Int :=
  toUint64 (t.sec + t.loc.offset + internalToAbsolute)

/-- The helper `absDate(abs, true)`: year, month and day of month. -/
def absDate (abs : Int) : Int × Int × Int :=
  let d := abs / secondsPerDay
  let n := d / daysPer400Years
  let y := 400 * n
  let d := d - daysPer400Years * n
  let n := d / daysPer100Years
  let n := n - n / 4
  let y := y + 100 * n
  let d := d - daysPer100Years * n
  let n := d / daysPer4Years
  let y := y + 4 * n
  let d := d - daysPer4Years * n
  let n := d / 365
  let n := n - n / 4
  let y := y + n
  let d := d - 365 * n
  let year := y + absoluteZeroYear
  let day := d
  if isLeap year && day == 31 + 29 - 1 then (year, 2, 29)
  else
    let day := if isLeap year && day > 31 + 29 - 1 then day - 1 else day
    let month := day / 31
    let «end» := daysBefore.getD (month + 1).toNat 0
    if day ≥ «end» then (year, month + 2, day - «end» + 1)
    else (year, month + 1, day - daysBefore.getD month.toNat 0 + 1)

/-- The helper `absClock(abs)`: hour, minute and second within the day. -/
def absClock (abs : Int) : Int × Int × Int :=
  let sec := abs % secondsPerDay
  let hour := sec / secondsPerHour
  let sec := sec - hour * secondsPerHour
  let min := sec / secondsPerMinute
  let sec := sec - min * secondsPerMinute
  (hour, min, sec)

/-- The helper `appendInt(b, x, width)`: decimal form of `x`, the magnitude padded
with leading zeros to `width` digits. -/
def appendInt (x : Int) (width : Nat) : String :=
  let ds := strconv.uitoa x.natAbs
  let padded := List.replicate (width - ds.length) '0' ++ ds
  if x < 0 then ⟨'-' :: padded⟩ else ⟨padded⟩

/-- The trimming loop of `appendNano`: drop trailing `'0'` characters. The
argument is the text reversed. -/
def trimZerosRev : List Char → List Char
  | [] => []
  | c :: cs => if c = '0' then trimZerosRev cs else c :: cs

/-- The helper `appendNano(b, nanosec, std)` for `std = stdFracSecond9` with a dot
separator, as `RFC3339Nano` asks: nothing at all for zero; otherwise the dot
and nine digits, then trailing zeros removed (and the dot, were it last). -/
def appendNano (nanosec : Nat) : String :=
  if nanosec = 0 then ""
  else
    let b := '.' :: (appendInt nanosec 9).data
    let r := trimZerosRev b.reverse
    let r := match r with
      | c :: cs => if c = '.' then cs else c :: cs
      | [] => []
    ⟨r.reverse⟩

/-- The date and clock part of `t.appendFormatRFC3339`: `2006-01-02T15:04:05` in
the time's own zone. -/
def Time.formatDateTime (t : Time) : String :=
  let abs := t.abs
  let (year, month, day) := absDate abs
  let (hour, min, sec) := absClock abs
  appendInt year 4 ++ "-" ++ appendInt month 2 ++ "-" ++ appendInt day 2
    ++ "T" ++ appendInt hour 2 ++ ":" ++ appendInt min 2 ++ ":" ++ appendInt sec 2

/-- The zone part of `t.appendFormatRFC3339`: `Z` for offset zero, otherwise the
sign and the offset as hours and minutes, the offset in minutes being rounded
toward zero. -/
def formatZone (offset : Int) : String :=
  if offset = 0 then "Z"
  else
    let zone := Int.tdiv offset 60
    let sign := if zone < 0 then "-" else "+"
    let zone := if zone < 0 then -zone else zone
    sign ++ appendInt (zone / 60) 2 ++ ":" ++ appendInt (zone % 60) 2

/-- The method `t.appendFormatRFC3339(b, true)`: date and clock, fraction, zone. -/
def Time.appendFormatRFC3339 (t : Time) : String :=
  t.formatDateTime ++ appendNano t.nsec ++ formatZone t.loc.offset

def isDigit (c : Char) : Bool := '0' ≤ c && c ≤ '9'

/-- The helper `num2` of `appendStrictRFC3339`: value of two ASCII digits. -/
def num2 (b : List Char) : Int :=
  10 * ((b.getD 0 '0').toNat - 48 : Int) + ((b.getD 1 '0').toNat - 48 : Int)

/-- The method `t.appendStrictRFC3339(b)`: the RFC 3339 text, and an error when
the year is not four digits wide or the zone hour is not below 24. -/
def Time.appendStrictRFC3339 (t : Time) : String × Option String :=
  let b := t.appendFormatRFC3339
  let bs := b.data
  if bs.getD 4 ' ' ≠ '-' then
    (b, some "year outside of range [0,9999]")
  else if bs.getLast? ≠ some 'Z' then
    let c := bs.getD (bs.length - 6) ' '
    if isDigit c || num2 (bs.drop (bs.length - 5)) ≥ 24 then
      (b, some "timezone hour outside of range [0,23]")
    else (b, none)
  else (b, none)

/-- The method `t.MarshalJSON()`: the strict RFC 3339 text between double quotes. -/
def Time.MarshalJSON (t : Time) : String × Option String :=
  match t.appendStrictRFC3339 with
  | (_, some err) => ("", some ("Time.MarshalJSON: " ++ err))
  | (b, none) => ("\"" ++ b ++ "\"", none)

end time

/-! ## The records of `main.go` -/

/-- A dynamic value held in an `interface{}` label: a string, an integer, a
boolean, or a value of a kind `encoding/json` has no encoding for (a channel,
a function, a complex number), given by the name of its type. -/
inductive Value where
  | string (s : String)
  | int (i : Int)
  | bool (b : Bool)
  | unsupported (typ : String)
  deriving DecidableEq, Repr

/-- A `map[string]interface{}`: `none` is the nil map; otherwise the entries in the
order a `range` over the map happens to yield them. The keys of a map are
distinct (`Labels.WF`). An entry's value `none` is the nil interface. -/
abbrev Labels := Option (List (String × Option Value))

/-- Keys of a map are pairwise distinct. -/
def Labels.WF : Labels → Prop
  | none => True
  | some kvs => (kvs.map Prod.fst).Nodup

instance (l : Labels) : Decidable (Labels.WF l) :=
  match l with
  | none => isTrue trivial
  | some kvs => inferInstanceAs (Decidable (kvs.map Prod.fst).Nodup)

structure HTTPRequest where
  Method : String := ""
  URL : String := ""
  Size : String := ""
  Status : Int := 0
  ResponseSize : String := ""
  UserAgent : String := ""
  RemoteIP : String := ""
  ServerIP : String := ""
  Referer : String := ""
  Latency : String := ""
  CacheLookup : Bool := false
  CacheHit : Bool := false
  CacheValidatedWithOriginServer : Bool := false
  CacheFillBytes : String := ""
  Protocol : String := ""
  deriving DecidableEq, Repr

structure SourceLocation where
  File : String := ""
  Line : String := ""
  Function : String := ""
  deriving DecidableEq, Repr

/-- Entry defines a log entry. Every field defaults to its Go zero value. -/
structure Entry where
  Severity : String := ""
  Message : String := ""
  HTTPRequest : HTTPRequest := {}
  Timestamp : time.Time := {}
  InsertID : String := ""
  Labels : Labels := none
  Operation : String := ""
  SourceLocation : SourceLocation := {}
  SpanID : String := ""
  Trace : String := ""
  TraceSampled : Bool := false
  deriving DecidableEq, Repr

/-! ## encoding/json -/

namespace json

inductive Error where
  | UnsupportedTypeError (typ : String)
  | MarshalerError (typ : String) (err : String)
  deriving DecidableEq, Repr

set_option linter.dupNamespace false in
/-- The method `Error()` of the two error types. -/
def Error.Error : Error → String
  | .UnsupportedTypeError typ => "json: unsupported type: " ++ typ
  | .MarshalerError typ err => "json: error calling MarshalJSON for type " ++ typ ++ ": " ++ err

/-- The result of an encoder: the bytes it wrote, or the error it raised. -/
abbrev Result := Except Error String

def hex (n : Nat) : Char := "0123456789abcdef".data.getD n '0'

/-- The table `htmlSafeSet` on ASCII: every character from space on, but for the
double quote, the backslash and the HTML characters `<`, `>`, `&`. -/
def htmlSafeSet (c : Char) : Bool :=
  0x20 ≤ c.toNat && c ≠ '"' && c ≠ '\\' && c ≠ '<' && c ≠ '>' && c ≠ '&'

/-- What the loop of `appendString` (with `escapeHTML` set) writes for one
character of the source. -/
def escape (c : Char) : List Char :=
  if c.toNat < 0x80 then
    if htmlSafeSet c then [c]
    else if c = '\\' ∨ c = '"' then ['\\', c]
    else if c = '\x08' then ['\\', 'b']
    else if c = '\x0c' then ['\\', 'f']
    else if c = '\n' then ['\\', 'n']
    else if c = '\r' then ['\\', 'r']
    else if c = '\t' then ['\\', 't']
    else ['\\', 'u', '0', '0', hex (c.toNat / 16), hex (c.toNat % 16)]
  else if c = '\u2028' ∨ c = '\u2029' then
    ['\\', 'u', '2', '0', '2', hex (c.toNat % 16)]
  else [c]

def appendStringLoop : List Char → List Char
  | [] => []
  | c :: cs => escape c ++ appendStringLoop cs

/-- The helper `appendString(dst, src, true)`: the JSON string literal for `src`. -/
def appendString (src : String) : String :=
  ⟨'"' :: (appendStringLoop src.data ++ ['"'])⟩

/-- What `appendHTMLEscape` writes for one character. -/
def htmlEscapeChar (c : Char) : List Char :=
  if c = '<' ∨ c = '>' ∨ c = '&' then
    ['\\', 'u', '0', '0', hex (c.toNat / 16), hex (c.toNat % 16)]
  else if c = '\u2028' ∨ c = '\u2029' then
    ['\\', 'u', '2', '0', '2', hex (c.toNat % 16)]
  else [c]

def appendHTMLEscapeLoop : List Char → List Char
  | [] => []
  | c :: cs => htmlEscapeChar c ++ appendHTMLEscapeLoop cs

def appendHTMLEscape (src : String) : String := ⟨appendHTMLEscapeLoop src.data⟩

def stringEncoder (s : String) : Result := .ok (appendString s)

def intEncoder (i : Int) : Result := .ok (strconv.AppendInt i)

def boolEncoder (b : Bool) : Result := .ok (strconv.AppendBool b)

def unsupportedTypeEncoder (typ : String) : Result := .error (.UnsupportedTypeError typ)

/-- The encoder of a type with a `MarshalJSON` method, at `time.Time`. The text
a successful `Time.MarshalJSON` returns is a string literal of digits and
`-`, `:`, `.`, `T`, `Z`, `+`, which `appendCompact` copies unchanged. -/
def marshalerEncoder (t : time.Time) : Result :=
  match t.MarshalJSON with
  | (b, none) => .ok b
  | (_, some err) => .error (.MarshalerError "time.Time" err)

/-- The encoder chosen for the dynamic value of an interface. -/
def valueEncoder : Value → Result
  | .string s => stringEncoder s
  | .int i => intEncoder i
  | .bool b => boolEncoder b
  | .unsupported typ => unsupportedTypeEncoder typ

def interfaceEncoder : Option Value → Result
  | none => .ok "null"
  | some v => valueEncoder v

/-- The comparison `strings.Compare` on the keys: lexicographic on bytes, which on valid
UTF-8 is lexicographic on code points. -/
def Compare : List Char → List Char → Ordering
  | [], [] => .eq
  | [], _ :: _ => .lt
  | _ :: _, [] => .gt
  | a :: as, b :: bs =>
    if a.toNat < b.toNat then .lt
    else if b.toNat < a.toNat then .gt
    else Compare as bs

/-- The order `slices.SortFunc` sorts the entries of a map into. -/
def keyLE (x y : String × Option Value) : Prop := Compare x.1.data y.1.data ≠ .gt

instance : DecidableRel keyLE := fun x y =>
  inferInstanceAs (Decidable (Compare x.1.data y.1.data ≠ .gt))

/-- The loop of `mapEncoder` over the sorted entries, after the first one:
a comma, the key, a colon, the element. -/
def mapEncoderLoop (first : Bool) : List (String × Option Value) → Result
  | [] => .ok ""
  | kv :: kvs => do
    let elem ← interfaceEncoder kv.2
    let rest ← mapEncoderLoop false kvs
    pure ((if first then "" else ",") ++ appendString kv.1 ++ ":" ++ elem ++ rest)

/-- The encoder `mapEncoder` at `map[string]interface{}`: `null` for the nil map, otherwise the
entries sorted by key between braces. -/
def mapEncoder : Labels → Result
  | none => .ok "null"
  | some kvs => do
    let body ← mapEncoderLoop true (kvs.insertionSort keyLE)
    pure ("\x7b" ++ body ++ "\x7d")

/-- One field of a struct as `structEncoder` sees it: the name from the `json`
tag, the `omitempty` option, whether the field's value is empty
(`isEmptyValue`), and what the encoder of the field writes. -/
structure Field where
  name : String
  omitEmpty : Bool
  isEmptyValue : Bool
  encoder : Result

/-- The loop of `structEncoder`: `next` is the separator to write before the
next field, `\x7b` until a field has been written and `,` thereafter. -/
def structEncoderLoop : List Field → Char → String → Except Error (String × Char)
  | [], next, buf => .ok (buf, next)
  | f :: fs, next, buf =>
    if f.omitEmpty && f.isEmptyValue then structEncoderLoop fs next buf
    else do
      let v ← f.encoder
      structEncoderLoop fs ','
        (buf ++ next.toString ++ "\"" ++ appendHTMLEscape f.name ++ "\":" ++ v)

def structEncoder (fields : List Field) : Result := do
  let (buf, next) ← structEncoderLoop fields '\x7b' ""
  if next = '\x7b' then pure (buf ++ "\x7b\x7d") else pure (buf ++ "\x7d")

/-- The fields of `HTTPRequest` with their tags, in declaration order. -/
def httpRequestFields (r : HTTPRequest) : List Field :=
  [ ⟨"requestMethod", false, r.Method = "", stringEncoder r.Method⟩,
    ⟨"requestUrl", false, r.URL = "", stringEncoder r.URL⟩,
    ⟨"requestSize", false, r.Size = "", stringEncoder r.Size⟩,
    ⟨"status", false, r.Status = 0, intEncoder r.Status⟩,
    ⟨"responseSize", false, r.ResponseSize = "", stringEncoder r.ResponseSize⟩,
    ⟨"userAgent", false, r.UserAgent = "", stringEncoder r.UserAgent⟩,
    ⟨"remoteIp", false, r.RemoteIP = "", stringEncoder r.RemoteIP⟩,
    ⟨"serverIp", false, r.ServerIP = "", stringEncoder r.ServerIP⟩,
    ⟨"referer", false, r.Referer = "", stringEncoder r.Referer⟩,
    ⟨"latency", false, r.Latency = "", stringEncoder r.Latency⟩,
    ⟨"cacheLookup", false, !r.CacheLookup, boolEncoder r.CacheLookup⟩,
    ⟨"cacheHit", false, !r.CacheHit, boolEncoder r.CacheHit⟩,
    ⟨"cacheValidatedWithOriginServer", false, !r.CacheValidatedWithOriginServer,
      boolEncoder r.CacheValidatedWithOriginServer⟩,
    ⟨"cacheFillBytes", false, r.CacheFillBytes = "", stringEncoder r.CacheFillBytes⟩,
    ⟨"protocol", false, r.Protocol = "", stringEncoder r.Protocol⟩ ]

/-- The fields of `SourceLocation` with their tags, in declaration order. -/
def sourceLocationFields (l : SourceLocation) : List Field :=
  [ ⟨"file", false, l.File = "", stringEncoder l.File⟩,
    ⟨"line", false, l.Line = "", stringEncoder l.Line⟩,
    ⟨"function", false, l.Function = "", stringEncoder l.Function⟩ ]

/-- The fields of `Entry` with their tags, in declaration order; only
`severity` carries `omitempty`. A struct value is never empty; a map is empty
when it has no entries. -/
def entryFields (e : Entry) : List Field :=
  [ ⟨"severity", true, e.Severity = "", stringEncoder e.Severity⟩,
    ⟨"message", false, e.Message = "", stringEncoder e.Message⟩,
    ⟨"httpRequest", false, false, structEncoder (httpRequestFields e.HTTPRequest)⟩,
    ⟨"time", false, false, marshalerEncoder e.Timestamp⟩,
    ⟨"logging.googleapis.com/insertId", false, e.InsertID = "", stringEncoder e.InsertID⟩,
    ⟨"logging.googleapis.com/labels", false, (e.Labels.getD []).isEmpty, mapEncoder e.Labels⟩,
    ⟨"logging.googleapis.com/operation", false, e.Operation = "", stringEncoder e.Operation⟩,
    ⟨"logging.googleapis.com/sourceLocation", false, false,
      structEncoder (sourceLocationFields e.SourceLocation)⟩,
    ⟨"logging.googleapis.com/spanId", false, e.SpanID = "", stringEncoder e.SpanID⟩,
    ⟨"logging.googleapis.com/trace", false, e.Trace = "", stringEncoder e.Trace⟩,
    ⟨"logging.googleapis.com/trace_sampled", false, !e.TraceSampled,
      boolEncoder e.TraceSampled⟩ ]

/-- The Go function `json.Marshal(e)` at an `Entry`: the encoding and no error, or no bytes and
the error. -/
def Marshal (e : Entry) : String × Option Error :=
  match structEncoder (entryFields e) with
  | .ok buf => (buf, none)
  | .error err => ("", some err)

end json

/-! ## io, fmt, log, net/http -/

/-- An `io.Writer` as the program sees it: the bytes accepted so far, and
whether the next `Write` fails. -/
structure IoWriter where
  written : String := ""
  failing : Bool := false
  deriving DecidableEq, Repr

/-- The method `Write(p)`: a failing writer takes nothing and reports an error. -/
def IoWriter.Write (w : IoWriter) (p : String) : IoWriter × Option String :=
  if w.failing then (w, some "write failed")
  else ({ w with written := w.written ++ p }, none)

namespace fmt

/-- The Go function `fmt.Sprintln(s)` of one operand whose text is `s` (a string, or a value
with a `String` method, printed through it): the text and a newline. -/
def Sprintln (s : String) : String := s ++ "\n"

end fmt

namespace log

/-- The standard logger once `init` has run `log.SetFlags(0)`: no flags, the
default empty header text, and the output it writes to. With no flags
`formatHeader` writes nothing. -/
structure Logger where
  out : IoWriter := {}
  deriving DecidableEq, Repr

/-- The method `Output(calldepth, s)`: the text, a newline added unless the text already
ends in one, in one `Write`; the error of the `Write` is the result. -/
def Logger.Output (l : Logger) (s : String) : Logger × Option String :=
  let buf := if s.data.getLast? = some '\n' then s else s ++ "\n"
  let (out, err) := l.out.Write buf
  ({ l with out := out }, err)

/-- The Go function `log.Printf(format, v...)` with the formatted text given: the result of
`Output` is dropped. -/
def Printf (l : Logger) (formatted : String) : Logger := (l.Output formatted).1

/-- The Go function `log.Println(v)` with the text of the operand given: the result of
`Output` is dropped. -/
def Println (l : Logger) (operand : String) : Logger := (l.Output (fmt.Sprintln operand)).1

end log

namespace http

/-- An incoming request, as far as a handler can tell requests apart. -/
structure Request where
  Method : String := "GET"
  URL : String := "/"
  Header : List (String × String) := []
  Body : String := ""
  deriving DecidableEq, Repr

/-- An `http.ResponseWriter`: whether the header has been written, the status
code sent with it, and the body so far. -/
structure ResponseWriter where
  wroteHeader : Bool := false
  status : Nat := 0
  body : String := ""
  deriving DecidableEq, Repr

def StatusOK : Nat := 200

/-- The method `WriteHeader(code)`: only the first call counts. -/
def ResponseWriter.WriteHeader (w : ResponseWriter) (code : Nat) : ResponseWriter :=
  if w.wroteHeader then w else { w with wroteHeader := true, status := code }

/-- The method `Write(p)`: writes the header with `StatusOK` first if it has not been
written. -/
def ResponseWriter.Write (w : ResponseWriter) (p : String) : ResponseWriter :=
  let w := w.WriteHeader StatusOK
  { w with body := w.body ++ p }

end http

/-! ## main.go -/

/-- The body of `Entry.String` with its effect made explicit: the text it
returns, and the message it hands to `log.Printf` when `json.Marshal` fails. -/
def Entry.StringLogged (e : Entry) : String × Option String :=
  let e := if e.Severity = "" then { e with Severity := "INFO" } else e
  let (out, err) := json.Marshal e
  match err with
  | some err => (out, some ("json.Marshal: " ++ err.Error))
  | none => (out, none)

/-- String renders an entry structure to the JSON format expected by Cloud Logging. -/
def Entry.String (e : Entry) : String := e.StringLogged.1

/-- The entry that `indexHandler` logs. -/
def indexEntry : Entry :=
  { Severity := "NOTICE"
    Message := "This is the default display field."
    HTTPRequest :=
      { Method := "POST"
        URL := "https://myapi.com"
        Size := "1234"
        Status := 200
        ResponseSize := "5678"
        UserAgent := "UserAgent"
        RemoteIP := "192.168.1.1"
        ServerIP := "192.168.1.1"
        Referer := "https://referer.com"
        Latency := "3.5s"
        CacheLookup := true
        CacheHit := true
        CacheValidatedWithOriginServer := true
        CacheFillBytes := "31415"
        Protocol := "HTTP/2" }
    Timestamp := time.Date 2020 10 16 21 22 23 24 time.UTC
    InsertID := "123456"
    Labels := some [("key1", some (.string "value")), ("key2", some (.string "42"))]
    Operation := "operation"
    SourceLocation :=
      { File := "main.go"
        Line := "132"
        Function := "indexHandler" }
    SpanID := "000000000000004a"
    Trace := "projects/my-projectid/traces/06796866738c859f2f19b7cfb3214824"
    TraceSampled := true }

/-- Printing an `Entry` with the standard logger: `fmt.Sprintln` calls
`Entry.String`, whose diagnostic, if any, goes to the logger first; then the
line is written. -/
def logPrintlnEntry (std : log.Logger) (e : Entry) : log.Logger :=
  let (s, diag) := e.StringLogged
  let std := match diag with
    | some msg => log.Printf std msg
    | none => std
  log.Println std s

/-- The handler: logs `indexEntry`, then writes the greeting to the response.
The state is the response writer and the standard logger. -/
def indexHandler (w : http.ResponseWriter) (_r : http.Request) (std : log.Logger) :
    http.ResponseWriter × log.Logger :=
  let std := logPrintlnEntry std indexEntry
  let w := w.Write (fmt.Sprintln "Hello Logger!")
  (w, std)

/-- The text `want` of `TestIndexHandler`, without its final newline. -/
def wantEntry : String :=
  "\x7b" ++
  "\"severity\":\"NOTICE\"," ++
  "\"message\":\"This is the default display field.\"," ++
  "\"httpRequest\":\x7b" ++
  "\"requestMethod\":\"POST\"," ++
  "\"requestUrl\":\"https://myapi.com\"," ++
  "\"requestSize\":\"1234\"," ++
  "\"status\":200," ++
  "\"responseSize\":\"5678\"," ++
  "\"userAgent\":\"UserAgent\"," ++
  "\"remoteIp\":\"192.168.1.1\"," ++
  "\"serverIp\":\"192.168.1.1\"," ++
  "\"referer\":\"https://referer.com\"," ++
  "\"latency\":\"3.5s\"," ++
  "\"cacheLookup\":true," ++
  "\"cacheHit\":true," ++
  "\"cacheValidatedWithOriginServer\":true," ++
  "\"cacheFillBytes\":\"31415\"," ++
  "\"protocol\":\"HTTP/2\"" ++
  "\x7d," ++
  "\"time\":\"2020-10-16T21:22:23.000000024Z\"," ++
  "\"logging.googleapis.com/insertId\":\"123456\"," ++
  "\"logging.googleapis.com/labels\":\x7b\"key1\":\"value\",\"key2\":\"42\"\x7d," ++
  "\"logging.googleapis.com/operation\":\"operation\"," ++
  "\"logging.googleapis.com/sourceLocation\":\x7b" ++
  "\"file\":\"main.go\"," ++
  "\"line\":\"132\"," ++
  "\"function\":\"indexHandler\"" ++
  "\x7d," ++
  "\"logging.googleapis.com/spanId\":\"000000000000004a\"," ++
  "\"logging.googleapis.com/trace\":\"projects/my-projectid/traces/06796866738c859f2f19b7cfb3214824\"," ++
  "\"logging.googleapis.com/trace_sampled\":true" ++
  "\x7d"

/-! ## The wire format, as the specification words it

The definitions below do not come from the code: they say what a JSON text of
the documented shape is, and how a reader takes a JSON string or number
apart, so that the output of `Entry.String` can be compared with them. -/

namespace JSONText

/-- A member of an object: the key as a JSON string, a colon, the value. -/
def member (k v : String) : String := json.appendString k ++ ":" ++ v

/-- Texts separated by single commas. -/
def joinComma : List String → String
  | [] => ""
  | [x] => x
  | x :: y :: xs => x ++ "," ++ joinComma (y :: xs)

/-- A JSON object with the given members (key and value text), in this order. -/
def object (ms : List (String × String)) : String :=
  "\x7b" ++ joinComma (ms.map fun m => member m.1 m.2) ++ "\x7d"

/-- Value of a hexadecimal digit. -/
def hexVal (c : Char) : Option Nat :=
  if '0' ≤ c ∧ c ≤ '9' then some (c.toNat - 48)
  else if 'a' ≤ c ∧ c ≤ 'f' then some (c.toNat - 87)
  else if 'A' ≤ c ∧ c ≤ 'F' then some (c.toNat - 55)
  else none

/-- The character a two-character escape stands for (RFC 8259, section 7). -/
def simpleEscape (c : Char) : Option Char :=
  if c = '"' then some '"'
  else if c = '\\' then some '\\'
  else if c = '/' then some '/'
  else if c = 'b' then some '\x08'
  else if c = 'f' then some '\x0c'
  else if c = 'n' then some '\n'
  else if c = 'r' then some '\r'
  else if c = 't' then some '\t'
  else none

/-- Reading the inside of a JSON string up to and including the closing quote,
which must be the last character: escapes are resolved, raw control
characters are refused. -/
def unquoteChars : List Char → Option (List Char)
  | [] => none
  | c :: rest =>
    if c = '"' then (if rest = [] then some [] else none)
    else if c = '\\' then
      match rest with
      | [] => none
      | e :: rest1 =>
        if e = 'u' then
          match rest1 with
          | a :: b :: c2 :: d :: rest2 =>
            match hexVal a, hexVal b, hexVal c2, hexVal d, unquoteChars rest2 with
            | some va, some vb, some vc, some vd, some r =>
              some (Char.ofNat (((va * 16 + vb) * 16 + vc) * 16 + vd) :: r)
            | _, _, _, _, _ => none
          | _ => none
        else
          match simpleEscape e, unquoteChars rest1 with
          | some x, some r => some (x :: r)
          | _, _ => none
    else if c.toNat < 0x20 then none
    else
      match unquoteChars rest with
      | some r => some (c :: r)
      | none => none

/-- The string a JSON string literal denotes, if the text is one. -/
def unquote (s : String) : Option String :=
  match s.data with
  | '"' :: rest => (unquoteChars rest).map String.mk
  | _ => none

/-- Value of a run of decimal digits. -/
def digitsValue (cs : List Char) : Nat :=
  cs.foldl (fun acc c => 10 * acc + (c.toNat - 48)) 0

/-- A run of decimal digits as JSON allows for an integer: not empty, and no
leading zero unless it is the single digit zero. -/
def isIntDigits (cs : List Char) : Bool :=
  !cs.isEmpty && cs.all time.isDigit && (cs.head? != some '0' || cs.length == 1)

/-- The integer a JSON number without fraction or exponent denotes. -/
def parseInt (s : String) : Option Int :=
  match s.data with
  | '-' :: ds => if isIntDigits ds then some (-(digitsValue ds : Int)) else none
  | ds => if isIntDigits ds then some (digitsValue ds : Int) else none

/-- The text holds no line feed and no carriage return. -/
def SingleLine (s : String) : Prop := ∀ c ∈ s.data, c ≠ '\n' ∧ c ≠ '\r'

instance (s : String) : Decidable (SingleLine s) :=
  inferInstanceAs (Decidable (∀ c ∈ s.data, c ≠ '\n' ∧ c ≠ '\r'))

end JSONText

/-- Names made only of ASCII characters that JSON and HTML escaping leave alone. -/
def plainName (n : String) : Bool :=
  n.data.all fun c => decide (c.toNat < 0x80) && json.htmlSafeSet c

/-- The severity that `Entry.String` serializes: `INFO` when none is set. -/
def severityOrDefault (e : Entry) : String :=
  if e.Severity = "" then "INFO" else e.Severity

/-- The members of the `httpRequest` object of the wire format. -/
def httpRequestMembers (r : HTTPRequest) : List (String × String) :=
  [ ("requestMethod", json.appendString r.Method),
    ("requestUrl", json.appendString r.URL),
    ("requestSize", json.appendString r.Size),
    ("status", strconv.AppendInt r.Status),
    ("responseSize", json.appendString r.ResponseSize),
    ("userAgent", json.appendString r.UserAgent),
    ("remoteIp", json.appendString r.RemoteIP),
    ("serverIp", json.appendString r.ServerIP),
    ("referer", json.appendString r.Referer),
    ("latency", json.appendString r.Latency),
    ("cacheLookup", strconv.AppendBool r.CacheLookup),
    ("cacheHit", strconv.AppendBool r.CacheHit),
    ("cacheValidatedWithOriginServer", strconv.AppendBool r.CacheValidatedWithOriginServer),
    ("cacheFillBytes", json.appendString r.CacheFillBytes),
    ("protocol", json.appendString r.Protocol) ]

/-- The members of the source location object of the wire format. -/
def sourceLocationMembers (l : SourceLocation) : List (String × String) :=
  [ ("file", json.appendString l.File),
    ("line", json.appendString l.Line),
    ("function", json.appendString l.Function) ]

/-- The members of a log line of the wire format, given the texts of the
`time` and the labels values. -/
def entryMembers (e : Entry) (timeText labelsText : String) : List (String × String) :=
  [ ("severity", json.appendString (severityOrDefault e)),
    ("message", json.appendString e.Message),
    ("httpRequest", JSONText.object (httpRequestMembers e.HTTPRequest)),
    ("time", timeText),
    ("logging.googleapis.com/insertId", json.appendString e.InsertID),
    ("logging.googleapis.com/labels", labelsText),
    ("logging.googleapis.com/operation", json.appendString e.Operation),
    ("logging.googleapis.com/sourceLocation",
      JSONText.object (sourceLocationMembers e.SourceLocation)),
    ("logging.googleapis.com/spanId", json.appendString e.SpanID),
    ("logging.googleapis.com/trace", json.appendString e.Trace),
    ("logging.googleapis.com/trace_sampled", strconv.AppendBool e.TraceSampled) ]

/-- The call of `json.Marshal` in `Entry.String` returned no error. -/
def Serializes (e : Entry) : Prop := e.StringLogged.2 = none

instance (e : Entry) : Decidable (Serializes e) :=
  inferInstanceAs (Decidable (e.StringLogged.2 = none))

deriving instance DecidableEq for Except

/-- A field that is written, with a plain name, and whose encoder succeeds with
the value text of the member `m`. -/
def fieldMatches (f : json.Field) (m : String × String) : Prop :=
  (f.omitEmpty && f.isEmptyValue) = false ∧ plainName f.name = true ∧ f.name = m.1 ∧
    f.encoder = .ok m.2

/-- Members written one after the other, the first after `sep` and the others
after a comma. -/
def membersFrom (sep : String) : List (String × String) → String
  | [] => ""
  | m :: ms => sep ++ JSONText.member m.1 m.2 ++ membersFrom "," ms

/-- The copy of the entry that `Entry.String` hands to `json.Marshal`. -/
def withSeverity (e : Entry) : Entry :=
  if e.Severity = "" then { e with Severity := "INFO" } else e

/-- What `Entry.String` makes of the result of `json.Marshal`. -/
def loggedOf (r : String × Option json.Error) : String × Option String :=
  match r.2 with
  | some err => (r.1, some ("json.Marshal: " ++ err.Error))
  | none => (r.1, none)

/-- The strict order of the keys. -/
def keyLT (x y : String × Option Value) : Prop := json.Compare x.1.data y.1.data = .lt

/-- A label value of a kind JSON can represent. -/
def encodable : Option Value → Bool
  | some (.unsupported _) => false
  | _ => true

/-- The JSON text of a label value: `null` for a nil interface, a string
literal for a string, a number for an integer, `true` or `false` for a
boolean. -/
def labelValueText : Option Value → String
  | none => "null"
  | some (.string s) => json.appendString s
  | some (.int i) => strconv.AppendInt i
  | some (.bool b) => strconv.AppendBool b
  | some (.unsupported _) => ""

/-- The members of the labels object: one per entry, key and value text. -/
def labelMembers (kvs : List (String × Option Value)) : List (String × String) :=
  kvs.map fun kv => (kv.1, labelValueText kv.2)

/-- The `k` low decimal digits of `n`, most significant first: the decimal
form of `n` padded with zeros to `k` digits when `n < 10 ^ k`. -/
def lowDigits : Nat → Nat → List Char
  | 0, _ => []
  | k + 1, n => lowDigits k (n / 10) ++ [strconv.digit (n % 10)]

/-- A run of digits without its trailing zeros. -/
def dropTrailingZeros (ds : List Char) : List Char :=
  (ds.reverse.dropWhile (· == '0')).reverse

/-- The fractional seconds of RFC 3339 as `time.RFC3339Nano` words them: none
for a whole second; otherwise a dot and the nine digits of the nanoseconds
without trailing zeros. -/
def fractionText (nsec : Nat) : String :=
  if nsec = 0 then "" else ⟨'.' :: dropTrailingZeros (lowDigits 9 nsec)⟩

/-- The zone of RFC 3339 for an offset in seconds east of UTC: `Z` for zero,
otherwise sign, hours and minutes of the offset in whole minutes. -/
def zoneText (offset : Int) : String :=
  if offset = 0 then "Z"
  else
    let minutes := (Int.tdiv offset 60).natAbs
    (if Int.tdiv offset 60 < 0 then "-" else "+")
      ++ ⟨lowDigits 2 (minutes / 60)⟩ ++ ":" ++ ⟨lowDigits 2 (minutes % 60)⟩

/-- Two maps hold the same key/value pairs: both are nil, or both are maps with
the same entries in some order. -/
def sameLabels : Labels → Labels → Prop
  | none, none => True
  | some a, some b => a.Perm b
  | _, _ => False

/-- A timestamp text in UTC with a fraction of exactly nine digits:
`"<date and clock>.<nine digits>Z"`. -/
def FixedWidthUTC (txt : String) : Prop :=
  ∃ dt frac : List Char, txt.data = '"' :: dt ++ '.' :: frac ++ ['Z', '"'] ∧
    frac.length = 9 ∧ ∀ c ∈ frac, time.isDigit c = true

/-- The entry of `indexHandler` at a whole second. -/
def wholeSecondEntry : Entry :=
  { indexEntry with Timestamp := time.Date 2020 10 16 21 22 23 0 time.UTC }

/-- The entry of `indexHandler` with its timestamp in a zone one hour east of UTC. -/
def zonedEntry : Entry :=
  { indexEntry with Timestamp := time.Date 2020 10 16 21 22 23 24 { offset := 3600 } }

/-- The entry of `indexHandler` with its two labels in the other order. -/
def swappedEntry : Entry :=
  { indexEntry with
    Labels := some [("key2", some (.string "42")), ("key1", some (.string "value"))] }

/-- An entry with a label that is a channel. -/
def channelEntry : Entry :=
  { Labels := some [("done", some (.unsupported "chan int"))] }

/-- An entry with a timestamp in the year 10000. -/
def lateEntry : Entry :=
  { Timestamp := time.Date 10000 1 1 0 0 0 0 time.UTC }

theorem char_toString_data (c : Char) : c.toString.data = [c] := rfl

theorem htmlEscapeChar_plain (c : Char)
    (h : (decide (c.toNat < 0x80) && json.htmlSafeSet c) = true) :
    json.htmlEscapeChar c = [c] := by
  simp only [Bool.and_eq_true, decide_eq_true_eq, json.htmlSafeSet] at h
  obtain ⟨h1, h2⟩ := h
  have h3 : c ≠ '\u2028' := by rintro rfl; revert h1; decide
  have h4 : c ≠ '\u2029' := by rintro rfl; revert h1; decide
  simp only [ne_eq, decide_not, Bool.and_eq_true, decide_eq_true_eq, Bool.not_eq_true',
    decide_eq_false_iff_not] at h2
  simp [json.htmlEscapeChar, h2, h3, h4]

theorem escape_plain (c : Char)
    (h : (decide (c.toNat < 0x80) && json.htmlSafeSet c) = true) :
    json.escape c = [c] := by
  simp only [Bool.and_eq_true, decide_eq_true_eq] at h
  simp [json.escape, h.1, h.2]

theorem appendHTMLEscapeLoop_plain (cs : List Char)
    (h : (cs.all fun c => decide (c.toNat < 0x80) && json.htmlSafeSet c) = true) :
    json.appendHTMLEscapeLoop cs = cs := by
  induction cs with
  | nil => rfl
  | cons c cs ih =>
    simp only [List.all_cons, Bool.and_eq_true] at h
    simp [json.appendHTMLEscapeLoop, htmlEscapeChar_plain c (by simpa using h.1), ih h.2]

theorem appendStringLoop_plain (cs : List Char)
    (h : (cs.all fun c => decide (c.toNat < 0x80) && json.htmlSafeSet c) = true) :
    json.appendStringLoop cs = cs := by
  induction cs with
  | nil => rfl
  | cons c cs ih =>
    simp only [List.all_cons, Bool.and_eq_true] at h
    simp [json.appendStringLoop, escape_plain c (by simpa using h.1), ih h.2]

theorem appendHTMLEscape_plain (n : String) (h : plainName n = true) :
    json.appendHTMLEscape n = n := by
  simp [json.appendHTMLEscape, appendHTMLEscapeLoop_plain n.data h]

theorem appendString_plain (n : String) (h : plainName n = true) :
    json.appendString n = "\"" ++ n ++ "\"" := by
  apply String.ext
  simp [json.appendString, appendStringLoop_plain n.data h]


theorem membersFrom_eq (sep : String) (m : String × String) (ms : List (String × String)) :
    membersFrom sep (m :: ms)
      = sep ++ JSONText.joinComma ((m :: ms).map fun m => JSONText.member m.1 m.2) := by
  induction ms generalizing sep m with
  | nil => simp [membersFrom, JSONText.joinComma]
  | cons m2 ms ih =>
    rw [membersFrom, ih]
    simp [JSONText.joinComma, String.append_assoc]

theorem structEncoderLoop_members (fs : List json.Field) (ms : List (String × String))
    (h : List.Forall₂ fieldMatches fs ms) (next : Char) (buf : String) :
    json.structEncoderLoop fs next buf
      = .ok (buf ++ membersFrom next.toString ms, if ms = [] then next else ',') := by
  induction h generalizing next buf with
  | nil => simp [json.structEncoderLoop, membersFrom]
  | @cons f m fs ms hfm _ ih =>
    obtain ⟨h1, h2, h3, h4⟩ := hfm
    rw [json.structEncoderLoop]
    simp only [h1, Bool.false_eq_true, if_false, h4, bind, Except.bind]
    rw [ih]
    simp only [reduceCtorEq, if_false, membersFrom]
    rw [appendHTMLEscape_plain _ h2, JSONText.member, appendString_plain _ (h3 ▸ h2), h3]
    congr 1
    refine Prod.ext ?_ ?_
    · apply String.ext
      cases ms <;> simp [membersFrom, char_toString_data]
    · cases ms <;> simp

theorem structEncoder_members (fs : List json.Field) (ms : List (String × String))
    (h : List.Forall₂ fieldMatches fs ms) :
    json.structEncoder fs = .ok (JSONText.object ms) := by
  rw [json.structEncoder, structEncoderLoop_members fs ms h]
  cases ms with
  | nil => simp [bind, Except.bind, pure, Except.pure, JSONText.object, JSONText.joinComma]; rfl
  | cons m ms =>
    simp only [bind, Except.bind, reduceCtorEq, if_false, pure, Except.pure]
    rw [membersFrom_eq, JSONText.object]
    simp
    rfl

theorem sourceLocation_ok (l : SourceLocation) :
    json.structEncoder (json.sourceLocationFields l)
      = .ok (JSONText.object (sourceLocationMembers l)) := by
  apply structEncoder_members
  simp only [json.sourceLocationFields, sourceLocationMembers, fieldMatches, json.stringEncoder,
    List.forall₂_cons, List.Forall₂.nil, Bool.false_and, true_and, and_true]
  decide

theorem httpRequest_ok (r : HTTPRequest) :
    json.structEncoder (json.httpRequestFields r)
      = .ok (JSONText.object (httpRequestMembers r)) := by
  apply structEncoder_members
  simp only [json.httpRequestFields, httpRequestMembers, fieldMatches, json.stringEncoder,
    json.intEncoder, json.boolEncoder,
    List.forall₂_cons, List.Forall₂.nil, Bool.false_and, true_and, and_true]
  decide

theorem severityOrDefault_of_ne (e : Entry) (hs : e.Severity ≠ "") :
    severityOrDefault e = e.Severity := by
  simp [severityOrDefault, hs]

theorem entry_ok (e : Entry) (t l : String) (hs : e.Severity ≠ "")
    (ht : json.marshalerEncoder e.Timestamp = .ok t) (hl : json.mapEncoder e.Labels = .ok l) :
    json.structEncoder (json.entryFields e) = .ok (JSONText.object (entryMembers e t l)) := by
  apply structEncoder_members
  simp only [json.entryFields, entryMembers, fieldMatches, json.stringEncoder,
    json.boolEncoder, httpRequest_ok, sourceLocation_ok, ht, hl, severityOrDefault_of_ne e hs,
    List.forall₂_cons, List.Forall₂.nil, Bool.false_and, true_and, and_true, hs, decide_False,
    Bool.and_false]
  decide


theorem structEncoderLoop_error (fs₁ : List json.Field) (ms : List (String × String))
    (f : json.Field) (fs₂ : List json.Field) (err : json.Error)
    (h : List.Forall₂ fieldMatches fs₁ ms)
    (hf : (f.omitEmpty && f.isEmptyValue) = false) (he : f.encoder = .error err)
    (next : Char) (buf : String) :
    json.structEncoderLoop (fs₁ ++ f :: fs₂) next buf = .error err := by
  induction h generalizing next buf with
  | nil =>
    rw [List.nil_append, json.structEncoderLoop]
    simp only [hf, Bool.false_eq_true, if_false, he, bind, Except.bind]
  | @cons g m fs ms hgm _ ih =>
    obtain ⟨h1, _, _, h4⟩ := hgm
    rw [List.cons_append, json.structEncoderLoop]
    simp only [h1, Bool.false_eq_true, if_false, h4, bind, Except.bind]
    exact ih _ _

theorem structEncoder_error (fs₁ : List json.Field) (ms : List (String × String))
    (f : json.Field) (fs₂ : List json.Field) (err : json.Error)
    (h : List.Forall₂ fieldMatches fs₁ ms)
    (hf : (f.omitEmpty && f.isEmptyValue) = false) (he : f.encoder = .error err) :
    json.structEncoder (fs₁ ++ f :: fs₂) = .error err := by
  rw [json.structEncoder, structEncoderLoop_error fs₁ ms f fs₂ err h hf he]
  rfl

theorem entry_error_time (e : Entry) (err : json.Error) (hs : e.Severity ≠ "")
    (ht : json.marshalerEncoder e.Timestamp = .error err) :
    json.structEncoder (json.entryFields e) = .error err := by
  have h := structEncoder_error
    [ ⟨"severity", true, e.Severity = "", json.stringEncoder e.Severity⟩,
      ⟨"message", false, e.Message = "", json.stringEncoder e.Message⟩,
      ⟨"httpRequest", false, false, json.structEncoder (json.httpRequestFields e.HTTPRequest)⟩ ]
    ((entryMembers e "" "").take 3)
    ⟨"time", false, false, json.marshalerEncoder e.Timestamp⟩
    ((json.entryFields e).drop 4) err
    (by
      simp only [entryMembers, fieldMatches, json.stringEncoder,
        httpRequest_ok, severityOrDefault_of_ne e hs, List.take_succ_cons, List.take_zero,
        List.forall₂_cons, List.Forall₂.nil, Bool.false_and, true_and, and_true, hs,
        decide_False, Bool.and_false]
      decide)
    rfl (by dsimp only; exact ht)
  simpa only [json.entryFields, List.drop_succ_cons, List.drop_zero, List.cons_append,
    List.nil_append] using h

theorem entry_error_labels (e : Entry) (t : String) (err : json.Error) (hs : e.Severity ≠ "")
    (ht : json.marshalerEncoder e.Timestamp = .ok t)
    (hl : json.mapEncoder e.Labels = .error err) :
    json.structEncoder (json.entryFields e) = .error err := by
  have h := structEncoder_error
    [ ⟨"severity", true, e.Severity = "", json.stringEncoder e.Severity⟩,
      ⟨"message", false, e.Message = "", json.stringEncoder e.Message⟩,
      ⟨"httpRequest", false, false, json.structEncoder (json.httpRequestFields e.HTTPRequest)⟩,
      ⟨"time", false, false, json.marshalerEncoder e.Timestamp⟩,
      ⟨"logging.googleapis.com/insertId", false, e.InsertID = "",
        json.stringEncoder e.InsertID⟩ ]
    ((entryMembers e t "").take 5)
    ⟨"logging.googleapis.com/labels", false, (e.Labels.getD []).isEmpty,
      json.mapEncoder e.Labels⟩
    ((json.entryFields e).drop 6) err
    (by
      simp only [entryMembers, fieldMatches, json.stringEncoder,
        httpRequest_ok, severityOrDefault_of_ne e hs, List.take_succ_cons, List.take_zero,
        List.forall₂_cons, List.Forall₂.nil, Bool.false_and, true_and, and_true, hs,
        decide_False, Bool.and_false, ht]
      decide)
    rfl (by dsimp only; exact hl)
  simpa only [json.entryFields, List.drop_succ_cons, List.drop_zero, List.cons_append,
    List.nil_append] using h

/-! ## `Entry.String` in terms of the two encoders that can fail -/

theorem withSeverity_Severity_ne (e : Entry) : (withSeverity e).Severity ≠ "" := by
  unfold withSeverity
  split
  · show "INFO" ≠ ""
    decide
  · assumption

theorem entryMembers_withSeverity (e : Entry) (t l : String) :
    entryMembers (withSeverity e) t l = entryMembers e t l := by
  unfold withSeverity
  split
  · next h => simp [entryMembers, severityOrDefault, h]
  · rfl

theorem withSeverity_Timestamp (e : Entry) : (withSeverity e).Timestamp = e.Timestamp := by
  unfold withSeverity; split <;> rfl

theorem withSeverity_Labels (e : Entry) : (withSeverity e).Labels = e.Labels := by
  unfold withSeverity; split <;> rfl

theorem StringLogged_eq (e : Entry) :
    e.StringLogged = loggedOf (json.Marshal (withSeverity e)) := by
  unfold Entry.StringLogged withSeverity loggedOf
  split <;> simp only []

theorem StringLogged_ok (e : Entry) (t l : String)
    (ht : json.marshalerEncoder e.Timestamp = .ok t) (hl : json.mapEncoder e.Labels = .ok l) :
    e.StringLogged = (JSONText.object (entryMembers e t l), none) := by
  rw [StringLogged_eq, json.Marshal,
    entry_ok (withSeverity e) t l (withSeverity_Severity_ne e)
      (by rw [withSeverity_Timestamp]; exact ht) (by rw [withSeverity_Labels]; exact hl),
    entryMembers_withSeverity]
  rfl

theorem StringLogged_error_time (e : Entry) (err : json.Error)
    (ht : json.marshalerEncoder e.Timestamp = .error err) :
    e.StringLogged = ("", some ("json.Marshal: " ++ err.Error)) := by
  rw [StringLogged_eq, json.Marshal,
    entry_error_time (withSeverity e) err (withSeverity_Severity_ne e)
      (by rw [withSeverity_Timestamp]; exact ht)]
  rfl

theorem StringLogged_error_labels (e : Entry) (t : String) (err : json.Error)
    (ht : json.marshalerEncoder e.Timestamp = .ok t)
    (hl : json.mapEncoder e.Labels = .error err) :
    e.StringLogged = ("", some ("json.Marshal: " ++ err.Error)) := by
  rw [StringLogged_eq, json.Marshal,
    entry_error_labels (withSeverity e) t err (withSeverity_Severity_ne e)
      (by rw [withSeverity_Timestamp]; exact ht) (by rw [withSeverity_Labels]; exact hl)]
  rfl

/-- Serialization succeeds exactly when the timestamp and the labels can be
encoded. -/
theorem serializes_iff (e : Entry) :
    Serializes e ↔
      (∃ t, json.marshalerEncoder e.Timestamp = .ok t) ∧
      (∃ l, json.mapEncoder e.Labels = .ok l) := by
  unfold Serializes
  cases ht : json.marshalerEncoder e.Timestamp with
  | error err => simp [StringLogged_error_time e err ht]
  | ok t =>
    cases hl : json.mapEncoder e.Labels with
    | error err => simp [StringLogged_error_labels e t err ht hl]
    | ok l => simp [StringLogged_ok e t l ht hl]

theorem String_of_serializes (e : Entry) (h : Serializes e) :
    ∃ t l, json.marshalerEncoder e.Timestamp = .ok t ∧ json.mapEncoder e.Labels = .ok l ∧
      e.String = JSONText.object (entryMembers e t l) := by
  obtain ⟨⟨t, ht⟩, ⟨l, hl⟩⟩ := (serializes_iff e).1 h
  exact ⟨t, l, ht, hl, by rw [Entry.String, StringLogged_ok e t l ht hl]⟩

theorem String_of_not_serializes (e : Entry) (h : ¬ Serializes e) : e.String = "" := by
  unfold Serializes at h
  cases ht : json.marshalerEncoder e.Timestamp with
  | error err => rw [Entry.String, StringLogged_error_time e err ht]
  | ok t =>
    cases hl : json.mapEncoder e.Labels with
    | error err => rw [Entry.String, StringLogged_error_labels e t err ht hl]
    | ok l => rw [StringLogged_ok e t l ht hl] at h; exact absurd rfl h

/-! ## Digits -/

theorem digit_isDigit (d : Nat) (h : d < 10) : time.isDigit (strconv.digit d) = true := by
  interval_cases d <;> decide

theorem formatBits_isDigit (fuel u : Nat) (acc : List Char)
    (hacc : ∀ c ∈ acc, time.isDigit c = true) :
    ∀ c ∈ strconv.formatBits fuel u acc, time.isDigit c = true := by
  induction fuel generalizing u acc with
  | zero => simpa [strconv.formatBits] using hacc
  | succ fuel ih =>
    rw [strconv.formatBits]
    split
    · next h =>
      intro c hc
      rcases List.mem_cons.1 hc with rfl | hc
      · exact digit_isDigit u h
      · exact hacc c hc
    · apply ih
      intro c hc
      rcases List.mem_cons.1 hc with rfl | hc
      · exact digit_isDigit _ (Nat.mod_lt _ (by decide))
      · exact hacc c hc

theorem uitoa_isDigit (u : Nat) : ∀ c ∈ strconv.uitoa u, time.isDigit c = true :=
  formatBits_isDigit _ _ _ (by simp)

theorem formatBits_ne_nil (fuel u : Nat) (acc : List Char) (h : 0 < fuel) :
    strconv.formatBits fuel u acc ≠ [] := by
  induction fuel generalizing u acc with
  | zero => omega
  | succ fuel ih =>
    rw [strconv.formatBits]
    split
    · simp
    · cases fuel with
      | zero => simp [strconv.formatBits]
      | succ n => exact ih _ _ (by omega)

theorem uitoa_ne_nil (u : Nat) : strconv.uitoa u ≠ [] :=
  formatBits_ne_nil _ _ _ (by omega)

/-! ## Texts without line breaks -/

theorem singleLine_append (a b : String) :
    JSONText.SingleLine (a ++ b) ↔ JSONText.SingleLine a ∧ JSONText.SingleLine b := by
  simp only [JSONText.SingleLine, String.data_append, List.mem_append]
  constructor
  · intro h
    exact ⟨fun c hc => h c (Or.inl hc), fun c hc => h c (Or.inr hc)⟩
  · rintro ⟨ha, hb⟩ c (hc | hc)
    · exact ha c hc
    · exact hb c hc

theorem singleLine_mk (cs : List Char) :
    JSONText.SingleLine ⟨cs⟩ ↔ ∀ c ∈ cs, c ≠ '\n' ∧ c ≠ '\r' := Iff.rfl

theorem isDigit_not_break (c : Char) (h : time.isDigit c = true) : c ≠ '\n' ∧ c ≠ '\r' := by
  constructor <;> (rintro rfl; revert h; decide)

theorem hex_not_break (n : Nat) : json.hex n ≠ '\n' ∧ json.hex n ≠ '\r' := by
  by_cases h : n < 16
  · interval_cases n <;> decide
  · have : json.hex n = '0' := by
      unfold json.hex
      exact List.getD_eq_default _ _ (by simpa using (Nat.not_lt.1 h))
    rw [this]
    decide

theorem escape_not_break (c : Char) : ∀ x ∈ json.escape c, x ≠ '\n' ∧ x ≠ '\r' := by
  have hh1 := hex_not_break (c.toNat / 16)
  have hh2 := hex_not_break (c.toNat % 16)
  unfold json.escape
  split
  · split
    · next hs =>
      intro x hx
      rw [List.mem_singleton] at hx
      subst hx
      constructor <;> (rintro rfl; revert hs; decide)
    · split
      · next h =>
        rcases h with rfl | rfl <;> decide
      · split
        · decide
        · split
          · decide
          · split
            · decide
            · split
              · decide
              · split
                · decide
                · intro x hx
                  simp only [List.mem_cons, List.mem_singleton, List.not_mem_nil,
                    or_false] at hx
                  rcases hx with rfl | rfl | rfl | rfl | rfl | rfl
                  all_goals first | decide | exact hh1 | exact hh2
  · next hlt =>
    split
    · intro x hx
      simp only [List.mem_cons, List.mem_singleton, List.not_mem_nil, or_false] at hx
      rcases hx with rfl | rfl | rfl | rfl | rfl | rfl
      all_goals first | decide | exact hh2
    · intro x hx
      rw [List.mem_singleton] at hx
      subst hx
      constructor <;> (rintro rfl; revert hlt; decide)

theorem appendStringLoop_not_break (cs : List Char) :
    ∀ x ∈ json.appendStringLoop cs, x ≠ '\n' ∧ x ≠ '\r' := by
  induction cs with
  | nil => simp [json.appendStringLoop]
  | cons c cs ih =>
    intro x hx
    rw [json.appendStringLoop, List.mem_append] at hx
    rcases hx with hx | hx
    · exact escape_not_break c x hx
    · exact ih x hx

theorem appendString_singleLine (s : String) : JSONText.SingleLine (json.appendString s) := by
  intro x hx
  simp only [json.appendString, List.mem_cons, List.mem_append, List.mem_singleton,
    List.not_mem_nil, or_false] at hx
  rcases hx with rfl | hx | rfl
  · decide
  · exact appendStringLoop_not_break _ x hx
  · decide

theorem AppendInt_singleLine (i : Int) : JSONText.SingleLine (strconv.AppendInt i) := by
  unfold strconv.AppendInt
  split
  · intro x hx
    rcases List.mem_cons.1 hx with rfl | hx
    · decide
    · exact isDigit_not_break x (uitoa_isDigit _ x hx)
  · intro x hx
    exact isDigit_not_break x (uitoa_isDigit _ x hx)

theorem AppendBool_singleLine (b : Bool) : JSONText.SingleLine (strconv.AppendBool b) := by
  cases b <;> (unfold JSONText.SingleLine; decide)

/-! ## The text of a timestamp has no line break -/

theorem appendInt_singleLine (x : Int) (w : Nat) : JSONText.SingleLine (time.appendInt x w) := by
  have hp : ∀ c ∈ List.replicate (w - (strconv.uitoa x.natAbs).length) '0'
      ++ strconv.uitoa x.natAbs, c ≠ '\n' ∧ c ≠ '\r' := by
    intro c hc
    rcases List.mem_append.1 hc with hc | hc
    · rw [(List.mem_replicate.1 hc).2]
      decide
    · exact isDigit_not_break c (uitoa_isDigit _ c hc)
  unfold time.appendInt
  simp only []
  split
  · intro c hc
    rcases List.mem_cons.1 hc with rfl | hc
    · decide
    · exact hp c hc
  · exact hp

theorem trimZerosRev_subset (l : List Char) : ∀ c ∈ time.trimZerosRev l, c ∈ l := by
  induction l with
  | nil => simp [time.trimZerosRev]
  | cons a l ih =>
    rw [time.trimZerosRev]
    split
    · intro c hc
      exact List.mem_cons_of_mem _ (ih c hc)
    · intro c hc
      exact hc

theorem appendNano_singleLine (n : Nat) : JSONText.SingleLine (time.appendNano n) := by
  unfold time.appendNano
  split
  · unfold JSONText.SingleLine; decide
  · simp only []
    have hb : ∀ c ∈ time.trimZerosRev ('.' :: (time.appendInt (↑n) 9).data).reverse,
        c ≠ '\n' ∧ c ≠ '\r' := by
      intro c hc
      have := trimZerosRev_subset _ c hc
      rw [List.mem_reverse] at this
      rcases List.mem_cons.1 this with rfl | h
      · decide
      · exact appendInt_singleLine _ _ c h
    intro c hc
    simp only [List.mem_reverse] at hc
    split at hc
    · next x cs heq =>
      rw [heq] at hb
      split at hc
      · exact hb c (List.mem_cons_of_mem _ hc)
      · exact hb c hc
    · simp at hc

theorem singleLine_lit (s : String) (h : (s.data.all fun c => c != '\n' && c != '\r') = true) :
    JSONText.SingleLine s := by
  intro c hc
  have := List.all_eq_true.1 h c hc
  simpa using this

theorem formatDateTime_singleLine (t : time.Time) :
    JSONText.SingleLine t.formatDateTime := by
  unfold time.Time.formatDateTime
  simp only [singleLine_append, appendInt_singleLine, true_and, and_true]
  exact ⟨⟨⟨⟨singleLine_lit _ (by decide), singleLine_lit _ (by decide)⟩,
    singleLine_lit _ (by decide)⟩, singleLine_lit _ (by decide)⟩, singleLine_lit _ (by decide)⟩

theorem formatZone_singleLine (offset : Int) : JSONText.SingleLine (time.formatZone offset) := by
  unfold time.formatZone
  split
  · exact singleLine_lit _ (by decide)
  · simp only [singleLine_append, appendInt_singleLine, true_and, and_true]
    refine ⟨?_, singleLine_lit _ (by decide)⟩
    split <;> exact singleLine_lit _ (by decide)

theorem appendFormatRFC3339_singleLine (t : time.Time) :
    JSONText.SingleLine t.appendFormatRFC3339 := by
  unfold time.Time.appendFormatRFC3339
  rw [singleLine_append, singleLine_append]
  exact ⟨⟨formatDateTime_singleLine t, appendNano_singleLine _⟩, formatZone_singleLine _⟩

theorem appendStrictRFC3339_fst (t : time.Time) :
    t.appendStrictRFC3339.1 = t.appendFormatRFC3339 := by
  unfold time.Time.appendStrictRFC3339
  simp only []
  split
  · rfl
  · split
    · split <;> rfl
    · rfl

theorem MarshalJSON_ok (t : time.Time) (txt : String) (h : t.MarshalJSON = (txt, none)) :
    txt = "\"" ++ t.appendFormatRFC3339 ++ "\"" ∧ t.appendStrictRFC3339.2 = none := by
  have h1 := appendStrictRFC3339_fst t
  unfold time.Time.MarshalJSON at h
  rcases hs : t.appendStrictRFC3339 with ⟨b, err⟩
  rw [hs] at h h1
  cases err with
  | some err => simp at h
  | none =>
    simp only [Prod.mk.injEq, and_true] at h
    simp only at h1
    rw [← h, h1]
    exact ⟨rfl, rfl⟩

theorem marshalerEncoder_ok (t : time.Time) (txt : String)
    (h : json.marshalerEncoder t = .ok txt) :
    txt = "\"" ++ t.appendFormatRFC3339 ++ "\"" ∧ t.appendStrictRFC3339.2 = none := by
  unfold json.marshalerEncoder at h
  rcases hm : t.MarshalJSON with ⟨b, err⟩
  rw [hm] at h
  cases err with
  | some err => simp at h
  | none =>
    simp only [Except.ok.injEq] at h
    subst h
    exact MarshalJSON_ok t b hm

theorem marshalerEncoder_singleLine (t : time.Time) (txt : String)
    (h : json.marshalerEncoder t = .ok txt) : JSONText.SingleLine txt := by
  rw [(marshalerEncoder_ok t txt h).1, singleLine_append, singleLine_append]
  exact ⟨⟨singleLine_lit _ (by decide), appendFormatRFC3339_singleLine t⟩,
    singleLine_lit _ (by decide)⟩

/-! ## The order of the keys -/

theorem Compare_self (a : List Char) : json.Compare a a = .eq := by
  induction a with
  | nil => rfl
  | cons x a ih => simp [json.Compare, ih]

theorem Compare_eq_iff (a b : List Char) : json.Compare a b = .eq ↔ a = b := by
  constructor
  · induction a generalizing b with
    | nil => cases b <;> simp [json.Compare]
    | cons x a ih =>
      cases b with
      | nil => simp [json.Compare]
      | cons y b =>
        rw [json.Compare]
        split
        · simp
        · split
          · simp
          · next h1 h2 =>
            intro h
            have hn : x.toNat = y.toNat := by omega
            have hxy : x = y := by
              have := congrArg Char.ofNat hn
              simpa [Char.ofNat_toNat] using this
            rw [hxy, ih b h]
  · rintro rfl
    exact Compare_self a

theorem Compare_gt_iff (a b : List Char) : json.Compare a b = .gt ↔ json.Compare b a = .lt := by
  induction a generalizing b with
  | nil => cases b <;> simp [json.Compare]
  | cons x a ih =>
    cases b with
    | nil => simp [json.Compare]
    | cons y b =>
      rw [json.Compare, json.Compare]
      by_cases h1 : x.toNat < y.toNat
      · have h2 : ¬ y.toNat < x.toNat := by omega
        simp [h1, h2]
      · by_cases h2 : y.toNat < x.toNat
        · simp [h1, h2]
        · simp [h1, h2, ih]

theorem Compare_le_trans (a b c : List Char) (h1 : json.Compare a b ≠ .gt)
    (h2 : json.Compare b c ≠ .gt) : json.Compare a c ≠ .gt := by
  induction a generalizing b c with
  | nil => cases c <;> simp [json.Compare]
  | cons x a ih =>
    cases b with
    | nil => simp [json.Compare] at h1
    | cons y b =>
      cases c with
      | nil => simp [json.Compare] at h2
      | cons z c =>
        rw [json.Compare] at h1 h2 ⊢
        by_cases hxy : x.toNat < y.toNat
        · by_cases hyz : y.toNat < z.toNat
          · have : x.toNat < z.toNat := by omega
            simp [this]
          · by_cases hzy : z.toNat < y.toNat
            · simp [hyz, hzy] at h2
            · have : x.toNat < z.toNat := by omega
              simp [this]
        · by_cases hyx : y.toNat < x.toNat
          · simp [hxy, hyx] at h1
          · simp only [hxy, hyx, if_false] at h1
            by_cases hyz : y.toNat < z.toNat
            · have : x.toNat < z.toNat := by omega
              simp [this]
            · by_cases hzy : z.toNat < y.toNat
              · simp [hyz, hzy] at h2
              · simp only [hyz, hzy, if_false] at h2
                have h3 : ¬ x.toNat < z.toNat := by omega
                have h4 : ¬ z.toNat < x.toNat := by omega
                simp only [h3, h4, if_false]
                exact ih b c h1 h2

instance keyLE_total : IsTotal (String × Option Value) json.keyLE where
  total x y := by
    unfold json.keyLE
    by_cases h : json.Compare x.1.data y.1.data = .gt
    · right
      rw [Compare_gt_iff] at h
      intro h2
      rw [h] at h2
      exact absurd h2 (by decide)
    · left
      exact h

instance keyLE_trans : IsTrans (String × Option Value) json.keyLE where
  trans _ _ _ h1 h2 := Compare_le_trans _ _ _ h1 h2

instance keyLT_antisymm : IsAntisymm (String × Option Value) keyLT where
  antisymm x y h1 h2 := by
    unfold keyLT at h1 h2
    rw [← Compare_gt_iff, h1] at h2
    exact absurd h2 (by decide)

theorem sorted_keyLT_of_nodup (l : List (String × Option Value))
    (hs : l.Sorted json.keyLE) (hn : (l.map Prod.fst).Nodup) : l.Sorted keyLT := by
  have hne : l.Pairwise (fun x y => x.1 ≠ y.1) := by
    rw [List.Nodup, List.pairwise_map] at hn
    exact hn
  refine (List.Pairwise.and hs hne).imp ?_
  rintro x y ⟨hle, hne⟩
  unfold json.keyLE at hle
  unfold keyLT
  cases hc : json.Compare x.1.data y.1.data with
  | lt => rfl
  | gt => exact absurd hc hle
  | eq =>
    have := (Compare_eq_iff _ _).1 hc
    exact absurd (String.ext this) hne

/-- The sorted entries depend on the set of entries only, not on the order they come in. -/
theorem insertionSort_perm_eq (l₁ l₂ : List (String × Option Value)) (hp : l₁.Perm l₂)
    (hn : (l₁.map Prod.fst).Nodup) :
    l₁.insertionSort json.keyLE = l₂.insertionSort json.keyLE := by
  have hp1 := List.perm_insertionSort json.keyLE l₁
  have hp2 := List.perm_insertionSort json.keyLE l₂
  have hn2 : (l₂.map Prod.fst).Nodup := (hp.map Prod.fst).nodup_iff.1 hn
  apply List.eq_of_perm_of_sorted (r := keyLT) (hp1.trans (hp.trans hp2.symm))
  · exact sorted_keyLT_of_nodup _ (List.sorted_insertionSort json.keyLE l₁)
      (((hp1.map Prod.fst).nodup_iff).2 hn)
  · exact sorted_keyLT_of_nodup _ (List.sorted_insertionSort json.keyLE l₂)
      (((hp2.map Prod.fst).nodup_iff).2 hn2)

/-! ## The labels encoder -/

theorem interfaceEncoder_ok (v : Option Value) (h : encodable v = true) :
    json.interfaceEncoder v = .ok (labelValueText v) := by
  rcases v with _ | v
  · rfl
  · cases v <;> first | rfl | simp [encodable] at h

theorem interfaceEncoder_error (v : Option Value) (h : encodable v = false) :
    ∃ typ, json.interfaceEncoder v = .error (.UnsupportedTypeError typ) := by
  rcases v with _ | v
  · simp [encodable] at h
  · cases v with
    | unsupported typ => exact ⟨typ, rfl⟩
    | string s => simp [encodable] at h
    | int i => simp [encodable] at h
    | bool b => simp [encodable] at h

theorem mapEncoderLoop_ok (first : Bool) (kvs : List (String × Option Value))
    (h : ∀ kv ∈ kvs, encodable kv.2 = true) :
    json.mapEncoderLoop first kvs
      = .ok (membersFrom (if first then "" else ",") (labelMembers kvs)) := by
  induction kvs generalizing first with
  | nil => rfl
  | cons kv kvs ih =>
    rw [json.mapEncoderLoop, interfaceEncoder_ok kv.2 (h kv (List.mem_cons_self _ _)),
      ih false (fun x hx => h x (List.mem_cons_of_mem _ hx))]
    simp only [bind, Except.bind, pure, Except.pure, labelMembers, List.map_cons, membersFrom,
      JSONText.member, Bool.false_eq_true, if_false]
    congr 1
    simp only [String.append_assoc]

theorem mapEncoderLoop_error (first : Bool) (kvs : List (String × Option Value))
    (h : ∃ kv ∈ kvs, encodable kv.2 = false) :
    ∃ typ, json.mapEncoderLoop first kvs = .error (.UnsupportedTypeError typ) := by
  induction kvs generalizing first with
  | nil => simp at h
  | cons kv kvs ih =>
    rw [json.mapEncoderLoop]
    cases hk : encodable kv.2 with
    | false =>
      obtain ⟨typ, ht⟩ := interfaceEncoder_error kv.2 hk
      exact ⟨typ, by rw [ht]; rfl⟩
    | true =>
      rw [interfaceEncoder_ok kv.2 hk]
      have : ∃ x ∈ kvs, encodable x.2 = false := by
        obtain ⟨x, hx, hxe⟩ := h
        rcases List.mem_cons.1 hx with rfl | hx
        · rw [hk] at hxe; cases hxe
        · exact ⟨x, hx, hxe⟩
      obtain ⟨typ, ht⟩ := ih false this
      exact ⟨typ, by simp only [bind, Except.bind, ht]⟩

theorem membersFrom_empty_sep (ms : List (String × String)) :
    "\x7b" ++ membersFrom "" ms ++ "\x7d" = JSONText.object ms := by
  cases ms with
  | nil => rfl
  | cons m ms =>
    rw [membersFrom_eq, JSONText.object]
    simp

theorem mapEncoder_ok (kvs : List (String × Option Value))
    (h : ∀ kv ∈ kvs, encodable kv.2 = true) :
    json.mapEncoder (some kvs)
      = .ok (JSONText.object (labelMembers (kvs.insertionSort json.keyLE))) := by
  have hs : ∀ kv ∈ kvs.insertionSort json.keyLE, encodable kv.2 = true := fun kv hkv =>
    h kv ((List.perm_insertionSort json.keyLE kvs).mem_iff.1 hkv)
  simp only [json.mapEncoder, mapEncoderLoop_ok true _ hs, bind, Except.bind, pure, Except.pure,
    if_true, membersFrom_empty_sep]

theorem mapEncoder_error (kvs : List (String × Option Value))
    (h : ∃ kv ∈ kvs, encodable kv.2 = false) :
    ∃ typ, json.mapEncoder (some kvs) = .error (.UnsupportedTypeError typ) := by
  have hs : ∃ kv ∈ kvs.insertionSort json.keyLE, encodable kv.2 = false := by
    obtain ⟨kv, hkv, he⟩ := h
    exact ⟨kv, (List.perm_insertionSort json.keyLE kvs).mem_iff.2 hkv, he⟩
  obtain ⟨typ, ht⟩ := mapEncoderLoop_error true _ hs
  exact ⟨typ, by simp only [json.mapEncoder, ht, bind, Except.bind]⟩

theorem mapEncoder_ok_iff (kvs : List (String × Option Value)) :
    (∃ l, json.mapEncoder (some kvs) = .ok l) ↔ ∀ kv ∈ kvs, encodable kv.2 = true := by
  constructor
  · rintro ⟨l, hl⟩
    by_contra hne
    push_neg at hne
    obtain ⟨kv, hkv, he⟩ := hne
    obtain ⟨typ, ht⟩ := mapEncoder_error kvs ⟨kv, hkv, by simpa using he⟩
    rw [ht] at hl
    cases hl
  · intro h
    exact ⟨_, mapEncoder_ok kvs h⟩

/-! ## No line break in the output -/

theorem singleLine_joinComma (xs : List String) (h : ∀ x ∈ xs, JSONText.SingleLine x) :
    JSONText.SingleLine (JSONText.joinComma xs) := by
  induction xs with
  | nil => exact singleLine_lit _ (by decide)
  | cons x xs ih =>
    cases xs with
    | nil => exact h x (List.mem_cons_self _ _)
    | cons y ys =>
      rw [JSONText.joinComma, singleLine_append, singleLine_append]
      exact ⟨⟨h x (List.mem_cons_self _ _), singleLine_lit _ (by decide)⟩,
        ih (fun z hz => h z (List.mem_cons_of_mem _ hz))⟩

theorem singleLine_object (ms : List (String × String))
    (h : ∀ m ∈ ms, JSONText.SingleLine m.2) : JSONText.SingleLine (JSONText.object ms) := by
  rw [JSONText.object, singleLine_append, singleLine_append]
  refine ⟨⟨singleLine_lit _ (by decide), singleLine_joinComma _ ?_⟩,
    singleLine_lit _ (by decide)⟩
  intro x hx
  obtain ⟨m, hm, rfl⟩ := List.mem_map.1 hx
  rw [JSONText.member, singleLine_append, singleLine_append]
  exact ⟨⟨appendString_singleLine _, singleLine_lit _ (by decide)⟩, h m hm⟩

theorem labelValueText_singleLine (v : Option Value) :
    JSONText.SingleLine (labelValueText v) := by
  rcases v with _ | v
  · exact singleLine_lit _ (by decide)
  · cases v with
    | string s => exact appendString_singleLine s
    | int i => exact AppendInt_singleLine i
    | bool b => exact AppendBool_singleLine b
    | unsupported typ => exact singleLine_lit "" (by decide)

theorem mapEncoder_singleLine (m : Labels) (l : String) (h : json.mapEncoder m = .ok l) :
    JSONText.SingleLine l := by
  rcases m with _ | kvs
  · simp only [json.mapEncoder, Except.ok.injEq] at h
    subst h
    exact singleLine_lit _ (by decide)
  · have hall := (mapEncoder_ok_iff kvs).1 ⟨l, h⟩
    rw [mapEncoder_ok kvs hall, Except.ok.injEq] at h
    subst h
    apply singleLine_object
    intro m hm
    obtain ⟨kv, _, rfl⟩ := List.mem_map.1 hm
    exact labelValueText_singleLine kv.2

theorem httpRequestMembers_singleLine (r : HTTPRequest) :
    ∀ m ∈ httpRequestMembers r, JSONText.SingleLine m.2 := by
  simp only [httpRequestMembers, List.forall_mem_cons, appendString_singleLine,
    AppendInt_singleLine, AppendBool_singleLine, true_and, List.not_mem_nil, false_implies,
    implies_true]

theorem sourceLocationMembers_singleLine (s : SourceLocation) :
    ∀ m ∈ sourceLocationMembers s, JSONText.SingleLine m.2 := by
  simp only [sourceLocationMembers, List.forall_mem_cons, appendString_singleLine,
    true_and, List.not_mem_nil, false_implies, implies_true]

theorem entryMembers_singleLine (e : Entry) (t l : String) (ht : JSONText.SingleLine t)
    (hl : JSONText.SingleLine l) : ∀ m ∈ entryMembers e t l, JSONText.SingleLine m.2 := by
  simp only [entryMembers, List.forall_mem_cons, appendString_singleLine,
    AppendBool_singleLine, true_and, List.not_mem_nil, false_implies, implies_true, ht, hl,
    singleLine_object _ (httpRequestMembers_singleLine _),
    singleLine_object _ (sourceLocationMembers_singleLine _), and_self]

theorem String_singleLine (e : Entry) : JSONText.SingleLine e.String := by
  by_cases h : Serializes e
  · obtain ⟨t, l, ht, hl, hs⟩ := String_of_serializes e h
    rw [hs]
    exact singleLine_object _ (entryMembers_singleLine e t l
      (marshalerEncoder_singleLine _ t ht) (mapEncoder_singleLine _ l hl))
  · rw [String_of_not_serializes e h]
    exact singleLine_lit _ (by decide)

/-! ## Reading back what the string encoder wrote -/

theorem hexVal_hex (k : Nat) (h : k < 16) : JSONText.hexVal (json.hex k) = some k := by
  interval_cases k <;> decide

theorem unquoteChars_plain (c : Char) (rest : List Char) (h1 : c ≠ '"') (h2 : c ≠ '\\')
    (h3 : ¬ c.toNat < 0x20) :
    JSONText.unquoteChars (c :: rest) = (JSONText.unquoteChars rest).map (c :: ·) := by
  conv_lhs => unfold JSONText.unquoteChars
  simp only [h1, h2, h3, if_false]
  cases JSONText.unquoteChars rest <;> rfl

theorem unquoteChars_simple (e x : Char) (rest : List Char) (he : e ≠ 'u')
    (hx : JSONText.simpleEscape e = some x) :
    JSONText.unquoteChars ('\\' :: e :: rest) = (JSONText.unquoteChars rest).map (x :: ·) := by
  conv_lhs => unfold JSONText.unquoteChars
  simp only [show ('\\' : Char) ≠ '"' by decide, if_false, if_true, he, hx]
  cases JSONText.unquoteChars rest <;> rfl

theorem unquoteChars_hex (a b c d : Char) (va vb vc vd : Nat) (rest : List Char)
    (ha : JSONText.hexVal a = some va) (hb : JSONText.hexVal b = some vb)
    (hc : JSONText.hexVal c = some vc) (hd : JSONText.hexVal d = some vd) :
    JSONText.unquoteChars ('\\' :: 'u' :: a :: b :: c :: d :: rest)
      = (JSONText.unquoteChars rest).map
          (Char.ofNat (((va * 16 + vb) * 16 + vc) * 16 + vd) :: ·) := by
  rw [JSONText.unquoteChars]
  simp only [show ('\\' : Char) ≠ '"' by decide, if_false, if_true, ha, hb, hc, hd]
  cases JSONText.unquoteChars rest <;> rfl

theorem unquoteChars_escape (c : Char) (rest : List Char) :
    JSONText.unquoteChars (json.escape c ++ rest)
      = (JSONText.unquoteChars rest).map (c :: ·) := by
  unfold json.escape
  split
  · next hlt =>
    split
    · next hs =>
      refine unquoteChars_plain c rest ?_ ?_ ?_
      · rintro rfl; revert hs; decide
      · rintro rfl; revert hs; decide
      · simp only [json.htmlSafeSet, Bool.and_eq_true, decide_eq_true_eq] at hs
        omega
    · split
      · next h =>
        rcases h with rfl | rfl
        · exact unquoteChars_simple _ _ rest (by decide) (by decide)
        · exact unquoteChars_simple _ _ rest (by decide) (by decide)
      · split
        · next h => subst h; exact unquoteChars_simple _ _ rest (by decide) (by decide)
        · split
          · next h => subst h; exact unquoteChars_simple _ _ rest (by decide) (by decide)
          · split
            · next h => subst h; exact unquoteChars_simple _ _ rest (by decide) (by decide)
            · split
              · next h => subst h; exact unquoteChars_simple _ _ rest (by decide) (by decide)
              · split
                · next h =>
                  subst h; exact unquoteChars_simple _ _ rest (by decide) (by decide)
                · have h1 := hexVal_hex (c.toNat / 16) (by omega)
                  have h2 := hexVal_hex (c.toNat % 16) (by omega)
                  have h0 : JSONText.hexVal '0' = some 0 := by decide
                  have := unquoteChars_hex '0' '0' _ _ 0 0 _ _ rest h0 h0 h1 h2
                  rw [List.cons_append, List.cons_append, List.cons_append, List.cons_append,
                    List.cons_append, List.cons_append, List.nil_append, this]
                  have hv : ((0 * 16 + 0) * 16 + c.toNat / 16) * 16 + c.toNat % 16
                      = c.toNat := by omega
                  rw [hv, Char.ofNat_toNat]
  · split
    · next h =>
      have h2 : JSONText.hexVal '2' = some 2 := by decide
      have h0 : JSONText.hexVal '0' = some 0 := by decide
      rcases h with rfl | rfl
      · have := unquoteChars_hex '2' '0' '2' _ 2 0 2 _ rest h2 h0 h2
          (hexVal_hex (('\u2028' : Char).toNat % 16) (by decide))
        rw [List.cons_append, List.cons_append, List.cons_append, List.cons_append,
          List.cons_append, List.cons_append, List.nil_append, this]
        rfl
      · have := unquoteChars_hex '2' '0' '2' _ 2 0 2 _ rest h2 h0 h2
          (hexVal_hex (('\u2029' : Char).toNat % 16) (by decide))
        rw [List.cons_append, List.cons_append, List.cons_append, List.cons_append,
          List.cons_append, List.cons_append, List.nil_append, this]
        rfl
    · next hge _ =>
      refine unquoteChars_plain c rest ?_ ?_ ?_
      · rintro rfl; revert hge; decide
      · rintro rfl; revert hge; decide
      · omega

theorem unquoteChars_appendStringLoop (cs : List Char) :
    JSONText.unquoteChars (json.appendStringLoop cs ++ ['"']) = some cs := by
  induction cs with
  | nil => rfl
  | cons c cs ih =>
    rw [json.appendStringLoop, List.append_assoc, unquoteChars_escape, ih]
    rfl

/-- The string literal written for `s` reads back as `s`. -/
theorem unquote_appendString (s : String) : JSONText.unquote (json.appendString s) = some s := by
  unfold JSONText.unquote json.appendString
  simp only [unquoteChars_appendStringLoop, Option.map_some']

/-! ## Reading back what the integer encoder wrote -/

theorem formatBits_acc (fuel u : Nat) (acc : List Char) :
    strconv.formatBits fuel u acc = strconv.formatBits fuel u [] ++ acc := by
  induction fuel generalizing u acc with
  | zero => rfl
  | succ fuel ih =>
    rw [strconv.formatBits, strconv.formatBits]
    split
    · rfl
    · rw [ih (u / 10) (strconv.digit (u % 10) :: acc), ih (u / 10) [strconv.digit (u % 10)]]
      simp

theorem digitsValue_snoc (cs : List Char) (c : Char) :
    JSONText.digitsValue (cs ++ [c]) = 10 * JSONText.digitsValue cs + (c.toNat - 48) := by
  simp [JSONText.digitsValue, List.foldl_append]

theorem digit_toNat (d : Nat) (h : d < 10) : (strconv.digit d).toNat - 48 = d := by
  interval_cases d <;> decide

theorem digitsValue_formatBits (fuel u : Nat) (h : u < 10 ^ fuel) :
    JSONText.digitsValue (strconv.formatBits fuel u []) = u := by
  induction fuel generalizing u with
  | zero =>
    have : u = 0 := by simpa using h
    subst this
    rfl
  | succ fuel ih =>
    rw [strconv.formatBits]
    split
    · next hlt =>
      have := digitsValue_snoc [] (strconv.digit u)
      simp only [List.nil_append] at this
      rw [this, digit_toNat u hlt]
      simp [JSONText.digitsValue]
    · rw [formatBits_acc, digitsValue_snoc, ih (u / 10) (by rw [pow_succ] at h; omega),
        digit_toNat _ (Nat.mod_lt _ (by decide))]
      omega

theorem lt_ten_pow_succ (u : Nat) : u < 10 ^ (u + 1) :=
  lt_of_lt_of_le (Nat.lt_pow_self (by decide) u) (Nat.pow_le_pow_right (by decide) (by omega))

theorem digitsValue_uitoa (u : Nat) : JSONText.digitsValue (strconv.uitoa u) = u :=
  digitsValue_formatBits _ _ (lt_ten_pow_succ u)

theorem digit_ne_zero (d : Nat) (h0 : 0 < d) (h : d < 10) : strconv.digit d ≠ '0' := by
  interval_cases d <;> decide

theorem formatBits_head (fuel u : Nat) (acc : List Char) (h0 : 0 < u) (h : u < 10 ^ fuel) :
    ∃ c, (strconv.formatBits fuel u acc).head? = some c ∧ c ≠ '0' := by
  induction fuel generalizing u acc with
  | zero => simp at h; omega
  | succ fuel ih =>
    rw [strconv.formatBits]
    split
    · next hlt => exact ⟨_, rfl, digit_ne_zero u h0 hlt⟩
    · exact ih (u / 10) _ (by omega) (by rw [pow_succ] at h; omega)

theorem isIntDigits_uitoa (u : Nat) : JSONText.isIntDigits (strconv.uitoa u) = true := by
  have hne := uitoa_ne_nil u
  have hd := uitoa_isDigit u
  unfold JSONText.isIntDigits
  simp only [Bool.and_eq_true, Bool.not_eq_true', List.isEmpty_eq_false, ne_eq, hne,
    not_false_eq_true, List.all_eq_true, true_and, Bool.or_eq_true, bne_iff_ne,
    beq_iff_eq]
  refine ⟨hd, ?_⟩
  rcases Nat.eq_zero_or_pos u with rfl | hpos
  · right; rfl
  · left
    obtain ⟨c, hc, hc0⟩ := formatBits_head (u + 1) u [] hpos (lt_ten_pow_succ u)
    unfold strconv.uitoa
    rw [hc]
    simpa using hc0

/-- The number written for `i` reads back as `i`. -/
theorem parseInt_AppendInt (i : Int) : JSONText.parseInt (strconv.AppendInt i) = some i := by
  unfold strconv.AppendInt
  split
  · next hneg =>
    simp only [JSONText.parseInt, isIntDigits_uitoa, if_true, digitsValue_uitoa]
    congr 1
    omega
  · next hpos =>
    have hd := uitoa_isDigit i.natAbs
    have hne := uitoa_ne_nil i.natAbs
    unfold JSONText.parseInt
    split
    · next ds heq =>
      simp only at heq
      have hm : time.isDigit '-' = true := hd '-' (by rw [heq]; exact List.mem_cons_self _ _)
      exact absurd hm (by decide)
    · simp only [isIntDigits_uitoa, if_true, digitsValue_uitoa]
      congr 1
      omega

/-! ## Zero-padded decimals -/

theorem formatBits_fuel (f₁ f₂ u : Nat) (h₁ : u < 10 ^ f₁) (h₂ : u < 10 ^ f₂)
    (p₁ : 0 < f₁) (p₂ : 0 < f₂) :
    strconv.formatBits f₁ u [] = strconv.formatBits f₂ u [] := by
  induction f₁ generalizing f₂ u with
  | zero => omega
  | succ f₁ ih =>
    cases f₂ with
    | zero => omega
    | succ f₂ =>
      rw [strconv.formatBits, strconv.formatBits]
      split
      · rfl
      · next hu =>
        have q₁ : u / 10 < 10 ^ f₁ := by rw [pow_succ] at h₁; omega
        have q₂ : u / 10 < 10 ^ f₂ := by rw [pow_succ] at h₂; omega
        have r₁ : 0 < f₁ := by
          rcases Nat.eq_zero_or_pos f₁ with rfl | h
          · simp at q₁; omega
          · exact h
        have r₂ : 0 < f₂ := by
          rcases Nat.eq_zero_or_pos f₂ with rfl | h
          · simp at q₂; omega
          · exact h
        rw [formatBits_acc f₁, formatBits_acc f₂, ih f₂ (u / 10) q₁ q₂ r₁ r₂]

theorem uitoa_small (u : Nat) (h : u < 10) : strconv.uitoa u = [strconv.digit u] := by
  rw [strconv.uitoa, strconv.formatBits, if_pos h]

theorem uitoa_step (u : Nat) (h : 10 ≤ u) :
    strconv.uitoa u = strconv.uitoa (u / 10) ++ [strconv.digit (u % 10)] := by
  rw [strconv.uitoa, strconv.formatBits, if_neg (by omega), formatBits_acc, strconv.uitoa,
    formatBits_fuel u (u / 10 + 1) (u / 10)
      (lt_of_lt_of_le (lt_ten_pow_succ (u / 10))
        (Nat.pow_le_pow_right (by decide) (by omega)))
      (lt_ten_pow_succ (u / 10)) (by omega) (by omega)]

theorem lowDigits_zero (k : Nat) : lowDigits k 0 = List.replicate k '0' := by
  induction k with
  | zero => rfl
  | succ k ih =>
    rw [lowDigits, Nat.zero_div, ih, List.replicate_succ']
    rfl

theorem pad_uitoa (k u : Nat) (h : u < 10 ^ (k + 1)) :
    List.replicate (k + 1 - (strconv.uitoa u).length) '0' ++ strconv.uitoa u
      = lowDigits (k + 1) u := by
  induction k generalizing u with
  | zero =>
    have hu : u < 10 := by simpa using h
    rw [uitoa_small u hu, lowDigits, lowDigits, Nat.mod_eq_of_lt hu]
    rfl
  | succ k ih =>
    by_cases hu : u < 10
    · rw [uitoa_small u hu, lowDigits, Nat.mod_eq_of_lt hu, Nat.div_eq_of_lt hu,
        lowDigits_zero]
      rfl
    · have hstep := uitoa_step u (by omega)
      have hlt : u / 10 < 10 ^ (k + 1) := by rw [pow_succ] at h; omega
      rw [hstep, lowDigits, ← ih (u / 10) hlt, List.length_append, List.length_singleton,
        List.append_assoc]
      congr 2
      omega

theorem appendInt_nat (k n : Nat) (h : n < 10 ^ (k + 1)) :
    time.appendInt (n : Int) (k + 1) = ⟨lowDigits (k + 1) n⟩ := by
  unfold time.appendInt
  simp only [Int.natAbs_ofNat, pad_uitoa k n h]
  rw [if_neg (by omega)]

theorem lowDigits_isDigit (k n : Nat) : ∀ c ∈ lowDigits k n, time.isDigit c = true := by
  induction k generalizing n with
  | zero => simp [lowDigits]
  | succ k ih =>
    intro c hc
    rw [lowDigits, List.mem_append, List.mem_singleton] at hc
    rcases hc with hc | rfl
    · exact ih _ c hc
    · exact digit_isDigit _ (Nat.mod_lt _ (by decide))

theorem lowDigits_length (k n : Nat) : (lowDigits k n).length = k := by
  induction k generalizing n with
  | zero => rfl
  | succ k ih => rw [lowDigits, List.length_append, ih, List.length_singleton]

theorem digit_eq_zero (d : Nat) (h : d < 10) (h0 : strconv.digit d = '0') : d = 0 := by
  by_contra hne
  exact digit_ne_zero d (by omega) h h0

theorem lowDigits_all_zero (k n : Nat) (h : n < 10 ^ k) (hz : ∀ c ∈ lowDigits k n, c = '0') :
    n = 0 := by
  induction k generalizing n with
  | zero => simpa using h
  | succ k ih =>
    rw [lowDigits] at hz
    have h1 := digit_eq_zero (n % 10) (Nat.mod_lt _ (by decide))
      (hz _ (List.mem_append_right _ (List.mem_singleton_self _)))
    have h2 := ih (n / 10) (by rw [pow_succ] at h; omega)
      (fun c hc => hz c (List.mem_append_left _ hc))
    omega

/-! ## The fraction of a second -/

theorem trimZerosRev_eq (l : List Char) : time.trimZerosRev l = l.dropWhile (· == '0') := by
  induction l with
  | nil => rfl
  | cons c l ih =>
    rw [time.trimZerosRev, List.dropWhile_cons]
    by_cases h : c = '0'
    · simp [h, ih]
    · simp [h]

theorem dropWhile_append_of_exists (p : Char → Bool) (l m : List Char)
    (h : ∃ x ∈ l, p x = false) : (l ++ m).dropWhile p = l.dropWhile p ++ m := by
  induction l with
  | nil => simp at h
  | cons c l ih =>
    rw [List.cons_append, List.dropWhile_cons, List.dropWhile_cons]
    cases hc : p c with
    | false => simp
    | true =>
      simp only [if_true]
      apply ih
      obtain ⟨x, hx, hpx⟩ := h
      rcases List.mem_cons.1 hx with rfl | hx
      · rw [hc] at hpx; cases hpx
      · exact ⟨x, hx, hpx⟩

theorem dropWhile_of_exists (p : Char → Bool) (l : List Char) (h : ∃ x ∈ l, p x = false) :
    ∃ c cs, l.dropWhile p = c :: cs ∧ p c = false ∧ c ∈ l := by
  induction l with
  | nil => simp at h
  | cons a l ih =>
    rw [List.dropWhile_cons]
    cases ha : p a with
    | false => exact ⟨a, l, by simp, ha, List.mem_cons_self _ _⟩
    | true =>
      simp only [if_true]
      obtain ⟨x, hx, hpx⟩ := h
      rcases List.mem_cons.1 hx with rfl | hx
      · rw [ha] at hpx; cases hpx
      · obtain ⟨c, cs, h1, h2, h3⟩ := ih ⟨x, hx, hpx⟩
        exact ⟨c, cs, h1, h2, List.mem_cons_of_mem _ h3⟩

/-- The fraction that `appendNano` writes is the nine digits of the
nanoseconds without trailing zeros, and nothing for zero. -/
theorem appendNano_eq (n : Nat) (h : n < 1000000000) : time.appendNano n = fractionText n := by
  unfold time.appendNano fractionText
  split
  · rfl
  · next hn =>
    have hD : (time.appendInt (n : Int) 9).data = lowDigits 9 n := by
      rw [appendInt_nat 8 n (by norm_num; exact h)]
    have hex : ∃ x ∈ (lowDigits 9 n).reverse, (x == '0') = false := by
      by_contra hne
      push_neg at hne
      apply hn
      apply lowDigits_all_zero 9 n (by norm_num; exact h)
      intro c hc
      have := hne c (List.mem_reverse.2 hc)
      simpa using this
    simp only [hD, List.reverse_cons, trimZerosRev_eq]
    rw [dropWhile_append_of_exists _ _ _ hex]
    obtain ⟨c, cs, h1, h2, h3⟩ := dropWhile_of_exists _ _ hex
    have hdot : c ≠ '.' := by
      have hd := lowDigits_isDigit 9 n c (List.mem_reverse.1 h3)
      rintro rfl
      exact absurd hd (by decide)
    rw [h1]
    simp only [List.cons_append, hdot, if_false]
    rw [← List.cons_append, ← h1]
    simp [dropTrailingZeros]

theorem fractionText_full (n : Nat) (h : n % 10 ≠ 0) :
    fractionText n = ⟨'.' :: lowDigits 9 n⟩ := by
  have hn : n ≠ 0 := by rintro rfl; simp at h
  have hd : strconv.digit (n % 10) ≠ '0' :=
    digit_ne_zero _ (by omega) (Nat.mod_lt _ (by decide))
  rw [fractionText, if_neg hn, dropTrailingZeros, lowDigits, List.reverse_append,
    List.reverse_singleton, List.singleton_append, List.dropWhile_cons]
  simp [hd]

/-! ## The zone -/

theorem formatZone_eq (offset : Int) (h : (Int.tdiv offset 60).natAbs / 60 < 100) :
    time.formatZone offset = zoneText offset := by
  unfold time.formatZone zoneText
  split
  · rfl
  · simp only []
    have hz : (if Int.tdiv offset 60 < 0 then -Int.tdiv offset 60 else Int.tdiv offset 60)
        = ((Int.tdiv offset 60).natAbs : Int) := by
      split <;> omega
    rw [hz]
    have h1 : ((Int.tdiv offset 60).natAbs : Int) / 60
        = (((Int.tdiv offset 60).natAbs / 60 : Nat) : Int) := by norm_cast
    have h2 : ((Int.tdiv offset 60).natAbs : Int) % 60
        = (((Int.tdiv offset 60).natAbs % 60 : Nat) : Int) := by norm_cast
    rw [h1, h2, appendInt_nat 1 _ (lt_of_lt_of_le h (by norm_num)),
      appendInt_nat 1 _ (lt_of_lt_of_le (Nat.mod_lt _ (by decide)) (by norm_num))]

theorem uitoa_last (u : Nat) : ∃ p, strconv.uitoa u = p ++ [strconv.digit (u % 10)] := by
  by_cases h : u < 10
  · exact ⟨[], by rw [uitoa_small u h, Nat.mod_eq_of_lt h]; rfl⟩
  · exact ⟨_, uitoa_step u (by omega)⟩

theorem uitoa_three (u : Nat) (h : 100 ≤ u) :
    ∃ p, strconv.uitoa u
      = p ++ [strconv.digit (u / 100 % 10), strconv.digit (u / 10 % 10), strconv.digit (u % 10)]
      := by
  obtain ⟨p, hp⟩ := uitoa_last (u / 10 / 10)
  refine ⟨p, ?_⟩
  rw [uitoa_step u (by omega), uitoa_step (u / 10) (by omega), hp, Nat.div_div_eq_div_mul]
  simp

theorem appendInt_three (u : Nat) (h : 100 ≤ u) :
    ∃ p, (time.appendInt (u : Int) 2).data
      = p ++ [strconv.digit (u / 100 % 10), strconv.digit (u / 10 % 10), strconv.digit (u % 10)]
      := by
  obtain ⟨p, hp⟩ := uitoa_three u h
  refine ⟨p, ?_⟩
  unfold time.appendInt
  simp only [Int.natAbs_ofNat]
  rw [if_neg (by omega), hp]
  simp

theorem getD_append_six (X : List Char) (a b c d e f dflt : Char) :
    (X ++ [a, b, c, d, e, f]).getD ((X ++ [a, b, c, d, e, f]).length - 6) dflt = a := by
  have hl : (X ++ [a, b, c, d, e, f]).length - 6 = X.length := by simp
  rw [hl, List.getD_eq_getElem?_getD, List.getElem?_append_right (le_refl _)]
  simp

theorem getLast?_append_six (X : List Char) (a b c d e f : Char) :
    (X ++ [a, b, c, d, e, f]).getLast? = some f := by
  have : X ++ [a, b, c, d, e, f] = (X ++ [a, b, c, d, e]) ++ [f] := by simp
  rw [this, List.getLast?_append]
  simp

/-- A zone whose hours need three digits is refused. -/
theorem appendStrictRFC3339_hours (t : time.Time)
    (h : 100 ≤ (Int.tdiv t.loc.offset 60).natAbs / 60) :
    t.appendStrictRFC3339.2 ≠ none := by
  have hoff : t.loc.offset ≠ 0 := by
    intro h0
    rw [h0] at h
    revert h
    decide
  obtain ⟨p, hp⟩ := appendInt_three _ h
  have hz : (if Int.tdiv t.loc.offset 60 < 0 then -Int.tdiv t.loc.offset 60
      else Int.tdiv t.loc.offset 60) = ((Int.tdiv t.loc.offset 60).natAbs : Int) := by
    split <;> omega
  have h1 : ((Int.tdiv t.loc.offset 60).natAbs : Int) / 60
      = (((Int.tdiv t.loc.offset 60).natAbs / 60 : Nat) : Int) := by norm_cast
  have h2 : ((Int.tdiv t.loc.offset 60).natAbs : Int) % 60
      = (((Int.tdiv t.loc.offset 60).natAbs % 60 : Nat) : Int) := by norm_cast
  have hd := digit_isDigit ((Int.tdiv t.loc.offset 60).natAbs / 60 / 100 % 10)
    (Nat.mod_lt _ (by decide))
  have hX : t.appendFormatRFC3339.data
      = (t.formatDateTime.data ++ (time.appendNano t.nsec).data
          ++ (if Int.tdiv t.loc.offset 60 < 0 then "-" else "+").data ++ p)
        ++ [strconv.digit ((Int.tdiv t.loc.offset 60).natAbs / 60 / 100 % 10),
          strconv.digit ((Int.tdiv t.loc.offset 60).natAbs / 60 / 10 % 10),
          strconv.digit ((Int.tdiv t.loc.offset 60).natAbs / 60 % 10), ':',
          strconv.digit ((Int.tdiv t.loc.offset 60).natAbs % 60 / 10 % 10),
          strconv.digit ((Int.tdiv t.loc.offset 60).natAbs % 60 % 10)] := by
    unfold time.Time.appendFormatRFC3339 time.formatZone
    rw [if_neg hoff]
    simp only [hz, h1, h2]
    rw [appendInt_nat 1 ((Int.tdiv t.loc.offset 60).natAbs % 60)
      (lt_of_lt_of_le (Nat.mod_lt _ (by decide)) (by norm_num))]
    simp only [String.data_append, hp, lowDigits, List.nil_append, List.append_assoc,
      List.singleton_append, List.cons_append]
  unfold time.Time.appendStrictRFC3339
  simp only []
  split
  · simp
  · rw [hX, getLast?_append_six, getD_append_six, hd]
    split
    · simp
    · next hne =>
      exfalso
      apply hne
      intro heq
      have hm := congrArg (Option.map time.isDigit) heq
      simp only [Option.map_some'] at hm
      rw [digit_isDigit _ (Nat.mod_lt _ (by decide))] at hm
      revert hm
      decide

/-! ## The text of the timestamp -/

theorem marshalerEncoder_text (t : time.Time) (txt : String)
    (h : json.marshalerEncoder t = .ok txt) (hn : t.nsec < 1000000000) :
    txt = "\"" ++ t.formatDateTime ++ fractionText t.nsec ++ zoneText t.loc.offset ++ "\"" := by
  obtain ⟨h1, h2⟩ := marshalerEncoder_ok t txt h
  have hh : (Int.tdiv t.loc.offset 60).natAbs / 60 < 100 := by
    by_contra hge
    exact appendStrictRFC3339_hours t (by omega) h2
  rw [h1, time.Time.appendFormatRFC3339, appendNano_eq _ hn, formatZone_eq _ hh]
  simp only [String.append_assoc]

/-! ## Quotes and braces -/

theorem appendString_head (s : String) : (json.appendString s).data.head? = some '"' := rfl

theorem appendString_getLast (s : String) : (json.appendString s).data.getLast? = some '"' := by
  unfold json.appendString
  rw [← List.cons_append, List.getLast?_append]
  rfl

theorem object_head (ms : List (String × String)) :
    (JSONText.object ms).data.head? = some '\x7b' := rfl

theorem AppendInt_no_quote (i : Int) : ∀ c ∈ (strconv.AppendInt i).data, c ≠ '"' := by
  intro c hc
  unfold strconv.AppendInt at hc
  split at hc
  · rcases List.mem_cons.1 hc with rfl | hc
    · decide
    · rintro rfl
      exact absurd (uitoa_isDigit _ _ hc) (by decide)
  · rintro rfl
    exact absurd (uitoa_isDigit _ _ hc) (by decide)

/-! ## The logger -/

theorem Println_written (l : log.Logger) (s : String) (h : l.out.failing = false) :
    (log.Println l s).out.written = l.out.written ++ s ++ "\n" := by
  have hl : (s ++ "\n").data.getLast? = some '\n' := by
    rw [String.data_append, List.getLast?_append]
    rfl
  unfold log.Println log.Logger.Output fmt.Sprintln IoWriter.Write
  simp only [hl, if_true, h, Bool.false_eq_true, if_false, String.append_assoc]

theorem logPrintlnEntry_ok (std : log.Logger) (e : Entry) (s : String)
    (h : e.StringLogged = (s, none)) : logPrintlnEntry std e = log.Println std s := by
  unfold logPrintlnEntry
  rw [h]

theorem mapEncoder_sameLabels (l₁ l₂ : Labels) (hl : sameLabels l₁ l₂) (hwf : Labels.WF l₁) :
    json.mapEncoder l₁ = json.mapEncoder l₂ := by
  rcases l₁ with _ | a <;> rcases l₂ with _ | b
  · rfl
  · exact absurd hl (by simp [sameLabels])
  · exact absurd hl (by simp [sameLabels])
  · simp only [json.mapEncoder]
    rw [insertionSort_perm_eq a b hl hwf]

/-! ## The claims -/

/-- C1: the entry that `indexHandler` builds serializes to the text that
`TestIndexHandler` expects, and for every request the handler appends exactly
that text followed by one newline to the log output. -/
theorem indexHandler_log_line (w : http.ResponseWriter) (r : http.Request) (std : log.Logger)
    (h : std.out.failing = false) :
    indexEntry.String = wantEntry ∧
      (indexHandler w r std).2.out.written = std.out.written ++ wantEntry ++ "\n" := by
  have hs : indexEntry.StringLogged = (wantEntry, none) := by decide
  refine ⟨by rw [Entry.String, hs], ?_⟩
  show (logPrintlnEntry std indexEntry).out.written = _
  rw [logPrintlnEntry_ok std indexEntry wantEntry hs, Println_written std wantEntry h]

theorem indexHandler_log_line_witness :
    indexEntry.String = wantEntry ∧
      (indexHandler {} {} {}).2.out.written
        = ({} : log.Logger).out.written ++ wantEntry ++ "\n" :=
  indexHandler_log_line {} {} {} rfl

/-- C3: `Entry.String` is total; it returns the empty string exactly when
`json.Marshal` fails, and a text that is not empty exactly when it succeeds.
A label of a kind JSON cannot represent makes it fail, and so does a
timestamp in the year 10000. -/
theorem String_empty_iff_failure (e : Entry) :
    (e.String = "" ↔ ¬ Serializes e) ∧ (e.String ≠ "" ↔ Serializes e) ∧
      (∀ (kvs₁ kvs₂ : List (String × Option Value)) (k typ : String),
        ({ e with Labels := some (kvs₁ ++ (k, some (.unsupported typ)) :: kvs₂) } : Entry).String
          = "") ∧
      lateEntry.String = "" := by
  have hne : Serializes e → e.String ≠ "" := by
    intro h
    obtain ⟨t, l, _, _, hs⟩ := String_of_serializes e h
    rw [hs]
    intro h0
    have := congrArg (fun s => s.data.head?) h0
    simp only [object_head] at this
    exact absurd this (by decide)
  refine ⟨⟨fun h hs => hne hs h, String_of_not_serializes e⟩,
    ⟨fun h => by_contra fun hs => h (String_of_not_serializes e hs), hne⟩, ?_, by decide⟩
  intro kvs₁ kvs₂ k typ
  apply String_of_not_serializes
  rw [serializes_iff]
  rintro ⟨_, ⟨l, hl⟩⟩
  have := (mapEncoder_ok_iff _).1 ⟨l, hl⟩ (k, some (.unsupported typ))
    (List.mem_append_right _ (List.mem_cons_self _ _))
  simp [encodable] at this

/-- C4 as stated fails: at a whole second the `time` field has no fraction at
all, and with a timestamp in a zone east of UTC it does not end in `Z`;
neither text is a UTC timestamp with nine fractional digits. -/
theorem time_field_not_fixed_width :
    Serializes wholeSecondEntry ∧
      wholeSecondEntry.String = JSONText.object (entryMembers wholeSecondEntry
        "\"2020-10-16T21:22:23Z\"" "\x7b\"key1\":\"value\",\"key2\":\"42\"\x7d") ∧
      ¬ FixedWidthUTC "\"2020-10-16T21:22:23Z\"" ∧
      Serializes zonedEntry ∧
      zonedEntry.String = JSONText.object (entryMembers zonedEntry
        "\"2020-10-16T21:22:23.000000024+01:00\"" "\x7b\"key1\":\"value\",\"key2\":\"42\"\x7d") ∧
      ¬ FixedWidthUTC "\"2020-10-16T21:22:23.000000024+01:00\"" := by
  refine ⟨by decide, by decide, ?_, by decide, by decide, ?_⟩
  · rintro ⟨dt, frac, hd, -, -⟩
    have : '.' ∈ ("\"2020-10-16T21:22:23Z\"" : String).data := by
      rw [hd]; simp
    exact absurd this (by decide)
  · rintro ⟨dt, frac, hd, -, -⟩
    have h1 := congrArg List.reverse hd
    simp only [List.reverse_append, List.reverse_cons, List.reverse_nil, List.nil_append,
      List.cons_append, List.append_assoc] at h1
    have h2 := congrArg (fun l => l.get? 1) h1
    revert h2
    simp

/-- C4, amended: in every successful output the `time` field is, between
double quotes, the date and clock of the timestamp in its own zone, then the
fraction (none for a whole second, otherwise a dot and the nine digits of the
nanoseconds without their trailing zeros, so all nine when the last is not
zero), then the zone (`Z` for offset zero, otherwise sign, hours and
minutes); 24 ns at UTC gives `.000000024Z`. -/
theorem time_field_rfc3339nano (e : Entry) (h : Serializes e)
    (hn : e.Timestamp.nsec < 1000000000) :
    (∃ l, e.String = JSONText.object (entryMembers e
      ("\"" ++ e.Timestamp.formatDateTime ++ fractionText e.Timestamp.nsec
        ++ zoneText e.Timestamp.loc.offset ++ "\"") l)) ∧
      fractionText 0 = "" ∧ fractionText 24 = ".000000024" ∧
      fractionText 500000000 = ".5" ∧ zoneText 0 = "Z" ∧ zoneText 3600 = "+01:00" ∧
      (e.Timestamp.nsec % 10 ≠ 0 →
        fractionText e.Timestamp.nsec = ⟨'.' :: lowDigits 9 e.Timestamp.nsec⟩) := by
  obtain ⟨t, l, ht, _, hs⟩ := String_of_serializes e h
  rw [marshalerEncoder_text _ t ht hn] at hs
  exact ⟨⟨l, hs⟩, by decide, by decide, by decide, by decide, by decide,
    fractionText_full _⟩

theorem time_field_rfc3339nano_witness :
    (∃ l, indexEntry.String = JSONText.object (entryMembers indexEntry
      ("\"" ++ indexEntry.Timestamp.formatDateTime ++ fractionText indexEntry.Timestamp.nsec
        ++ zoneText indexEntry.Timestamp.loc.offset ++ "\"") l)) ∧
      fractionText 0 = "" ∧ fractionText 24 = ".000000024" ∧
      fractionText 500000000 = ".5" ∧ zoneText 0 = "Z" ∧ zoneText 3600 = "+01:00" ∧
      (indexEntry.Timestamp.nsec % 10 ≠ 0 →
        fractionText indexEntry.Timestamp.nsec
          = ⟨'.' :: lowDigits 9 indexEntry.Timestamp.nsec⟩) :=
  time_field_rfc3339nano indexEntry (by decide) (by decide)

/-- C7: in every successful output `status` is the decimal number of the
integer, with no quote in it, reading back as that integer (zero and
negatives included); `requestSize`, `responseSize`, `cacheFillBytes` and
`line` are string literals between double quotes, reading back as the field
whatever its characters; the three cache flags and `trace_sampled` are the
bare literals `true` or `false`. -/
theorem field_renderings (e : Entry) (h : Serializes e) :
    ∃ ms hs ss, e.String = JSONText.object ms ∧
      ms[2]? = some ("httpRequest", JSONText.object hs) ∧
      ms[7]? = some ("logging.googleapis.com/sourceLocation", JSONText.object ss) ∧
      hs[3]? = some ("status", strconv.AppendInt e.HTTPRequest.Status) ∧
      JSONText.parseInt (strconv.AppendInt e.HTTPRequest.Status) = some e.HTTPRequest.Status ∧
      (∀ c ∈ (strconv.AppendInt e.HTTPRequest.Status).data, c ≠ '"') ∧
      strconv.AppendInt 0 = "0" ∧ strconv.AppendInt (-404) = "-404" ∧
      hs[2]? = some ("requestSize", json.appendString e.HTTPRequest.Size) ∧
      hs[4]? = some ("responseSize", json.appendString e.HTTPRequest.ResponseSize) ∧
      hs[13]? = some ("cacheFillBytes", json.appendString e.HTTPRequest.CacheFillBytes) ∧
      ss[1]? = some ("line", json.appendString e.SourceLocation.Line) ∧
      (∀ s : String, (json.appendString s).data.head? = some '"' ∧
        (json.appendString s).data.getLast? = some '"' ∧
        JSONText.unquote (json.appendString s) = some s) ∧
      json.appendString "1234" = "\"1234\"" ∧
      hs[10]? = some ("cacheLookup", if e.HTTPRequest.CacheLookup then "true" else "false") ∧
      hs[11]? = some ("cacheHit", if e.HTTPRequest.CacheHit then "true" else "false") ∧
      hs[12]? = some ("cacheValidatedWithOriginServer",
        if e.HTTPRequest.CacheValidatedWithOriginServer then "true" else "false") ∧
      ms[10]? = some ("logging.googleapis.com/trace_sampled",
        if e.TraceSampled then "true" else "false") := by
  obtain ⟨t, l, _, _, hs⟩ := String_of_serializes e h
  exact ⟨entryMembers e t l, httpRequestMembers e.HTTPRequest,
    sourceLocationMembers e.SourceLocation, hs, rfl, rfl, rfl, parseInt_AppendInt _,
    AppendInt_no_quote _, by decide, by decide, rfl, rfl, rfl, rfl,
    fun s => ⟨appendString_head s, appendString_getLast s, unquote_appendString s⟩,
    by decide, rfl, rfl, rfl, rfl⟩

theorem field_renderings_witness :
    ∃ ms hs ss, indexEntry.String = JSONText.object ms ∧
      ms[2]? = some ("httpRequest", JSONText.object hs) ∧
      ms[7]? = some ("logging.googleapis.com/sourceLocation", JSONText.object ss) ∧
      hs[3]? = some ("status", strconv.AppendInt indexEntry.HTTPRequest.Status) ∧
      JSONText.parseInt (strconv.AppendInt indexEntry.HTTPRequest.Status)
        = some indexEntry.HTTPRequest.Status ∧
      (∀ c ∈ (strconv.AppendInt indexEntry.HTTPRequest.Status).data, c ≠ '"') ∧
      strconv.AppendInt 0 = "0" ∧ strconv.AppendInt (-404) = "-404" ∧
      hs[2]? = some ("requestSize", json.appendString indexEntry.HTTPRequest.Size) ∧
      hs[4]? = some ("responseSize", json.appendString indexEntry.HTTPRequest.ResponseSize) ∧
      hs[13]? = some ("cacheFillBytes",
        json.appendString indexEntry.HTTPRequest.CacheFillBytes) ∧
      ss[1]? = some ("line", json.appendString indexEntry.SourceLocation.Line) ∧
      (∀ s : String, (json.appendString s).data.head? = some '"' ∧
        (json.appendString s).data.getLast? = some '"' ∧
        JSONText.unquote (json.appendString s) = some s) ∧
      json.appendString "1234" = "\"1234\"" ∧
      hs[10]? = some ("cacheLookup",
        if indexEntry.HTTPRequest.CacheLookup then "true" else "false") ∧
      hs[11]? = some ("cacheHit", if indexEntry.HTTPRequest.CacheHit then "true" else "false") ∧
      hs[12]? = some ("cacheValidatedWithOriginServer",
        if indexEntry.HTTPRequest.CacheValidatedWithOriginServer then "true" else "false") ∧
      ms[10]? = some ("logging.googleapis.com/trace_sampled",
        if indexEntry.TraceSampled then "true" else "false") :=
  field_renderings indexEntry (by decide)

/-- C8: for every request and every state of the logger, working or failing,
the handler given a fresh response writer leaves the status 200, set by the
first write, and the body `Hello Logger!` with one newline; the response is
the same for all requests and logger states, and for any response writer it
is the one write of the greeting. -/
theorem indexHandler_response (r : http.Request) (std : log.Logger) :
    (indexHandler {} r std).1
        = { wroteHeader := true, status := 200, body := "Hello Logger!\n" } ∧
      (∀ (r' : http.Request) (std' : log.Logger),
        (indexHandler {} r' std').1 = (indexHandler {} r std).1) ∧
      (∀ w : http.ResponseWriter, (indexHandler w r std).1 = w.Write "Hello Logger!\n") :=
  ⟨rfl, fun _ _ => rfl, fun _ => rfl⟩

/-- C9: `Entry.String` is a function of the value of the entry, and two
entries that agree on every other field and whose labels hold the same
key/value pairs, in whatever order, serialize to the same text. -/
theorem String_label_order (e : Entry) (l₁ l₂ : Labels) (hl : sameLabels l₁ l₂)
    (hwf : Labels.WF l₁) :
    ({ e with Labels := l₁ } : Entry).String = ({ e with Labels := l₂ } : Entry).String ∧
      (∀ e₁ e₂ : Entry, e₁ = e₂ → e₁.String = e₂.String) := by
  refine ⟨?_, fun e₁ e₂ h => by rw [h]⟩
  have hm := mapEncoder_sameLabels l₁ l₂ hl hwf
  unfold Entry.String
  cases ht : json.marshalerEncoder e.Timestamp with
  | error err =>
    rw [StringLogged_error_time { e with Labels := l₁ } err ht,
      StringLogged_error_time { e with Labels := l₂ } err ht]
  | ok t =>
    cases hl₁ : json.mapEncoder l₁ with
    | error err =>
      rw [StringLogged_error_labels { e with Labels := l₁ } t err ht hl₁,
        StringLogged_error_labels { e with Labels := l₂ } t err ht (hm ▸ hl₁)]
    | ok l =>
      rw [StringLogged_ok { e with Labels := l₁ } t l ht hl₁,
        StringLogged_ok { e with Labels := l₂ } t l ht (hm ▸ hl₁)]
      rfl

theorem String_label_order_witness :
    ({ indexEntry with Labels := indexEntry.Labels } : Entry).String
        = ({ indexEntry with Labels := swappedEntry.Labels } : Entry).String ∧
      (∀ e₁ e₂ : Entry, e₁ = e₂ → e₁.String = e₂.String) :=
  String_label_order indexEntry indexEntry.Labels swappedEntry.Labels
    (List.Perm.swap _ _ _) (by decide)

/-- C10: for every entry, whatever line feeds or carriage returns its strings
hold, the output of `Entry.String` holds neither; followed by one newline it
has exactly one line feed, at its end, and that is what the handler writes to
the log. -/
theorem String_single_line (e : Entry) :
    JSONText.SingleLine e.String ∧
      (fmt.Sprintln e.String).data.count '\n' = 1 ∧
      (fmt.Sprintln e.String).data.getLast? = some '\n' ∧
      (∀ (w : http.ResponseWriter) (r : http.Request),
        (indexHandler w r {}).2.out.written = fmt.Sprintln indexEntry.String) ∧
      JSONText.SingleLine
        ({ Message := "a\nb\r", Labels := some [("k\n", some (.string "\r\n"))] } : Entry).String
      := by
  have h := String_singleLine e
  refine ⟨h, ?_, ?_, ?_, String_singleLine _⟩
  · unfold fmt.Sprintln
    rw [String.data_append, List.count_append]
    have h0 : e.String.data.count '\n' = 0 :=
      List.count_eq_zero.2 fun hmem => (h _ hmem).1 rfl
    rw [h0]
    rfl
  · unfold fmt.Sprintln
    rw [String.data_append, List.getLast?_append]
    rfl
  · intro w r
    have hs : indexEntry.StringLogged = (wantEntry, none) := by decide
    show (logPrintlnEntry {} indexEntry).out.written = _
    rw [logPrintlnEntry_ok {} indexEntry wantEntry hs, Println_written {} wantEntry rfl,
      Entry.String, hs]
    rfl
